import Mathlib

/-!
Verification development for the byte-level external sort in `src/lib.rs`
(crate `big_file_sort`).

The program sorts the bytes of a file with a bounded memory budget
(`cache_size`): a run-producer loop reads chunks of at most `cache_size`
bytes, sorts each chunk with `sort_unstable`, and appends it to a scratch
file (`<input>.tmp.txt`); a `FileSortHelper` then k-way-merges the sorted
runs from the scratch file into `<input>.out.txt` using one sub-buffer of
`buffer_size = cache_size / (caches_num + 1)` bytes per run plus one output
sub-buffer.

Shallow embedding conventions:
* a file is its byte content, a `List Nat` (each byte is `< 256`; the only
  place where the `u8` range matters is the `u8::MAX` sentinel in
  `FileSortHelper::merge`, which appears literally as `255` below);
* Rust `u64` arithmetic is modelled on `Nat`.  Every subtraction the code
  performs is shown non-underflowing where the surrounding proofs need it;
  the multiplication `cache_size * caches_num` in `FileSortHelper::new`
  cannot reach `2 ^ 64` for any file a real filesystem can hold (that would
  need a file within `cache_size` bytes of `2 ^ 64`), so no `% 2 ^ 64` is
  inserted;
* fallible I/O is `Except Err`; a Rust `assert!`/`panic!` is modelled as the
  distinguished error `Err.panicked` (the caller of the real program cannot
  catch it — keeping it separate from `Err.ioError` lets theorems
  distinguish a crash from a recoverable `Err` return);
* the `merge` loop is driven by explicit fuel (`file length + 1`);
  exhausted fuel yields the artificial error `Err.outOfFuel`, so every
  `.ok` result corresponds to a real terminating execution;
* this pure model describes executions in which every file operation
  succeeds.  A second, instrumented model (`sort_fileE` below) threads an
  explicit failure schedule and the existence of the scratch file through
  the same control flow; it settles the resource-cleanup claim.
-/

/-- Outcome classification for the model. `ioError` stands for any
`std::io::Error` returned by a file operation; `panicked` is an
`assert!`/`panic!` abort (not a value the Rust caller receives);
`outOfFuel` is a modelling artefact of the fuelled merge loop. -/
inductive Err where
  | ioError
  | panicked (msg : String)
  | outOfFuel
deriving DecidableEq, Repr

/-- Which path `sort_file` returns: the untouched input path, or the input
path with its extension replaced by `out.txt`. -/
inductive PathChoice where
  | original
  | outTxt
deriving DecidableEq, Repr

/-- Observable result of a successful `sort_file` call: the byte content of
the file at the returned path, which path was returned, and (ghost)
facts about the on-disk state when the call returns: whether the merge
engine (`FileSortHelper`) was used, whether the scratch `tmp.txt` file is
still on disk, and whether an `out.txt` file was created. -/
structure SortOk where
  content : List Nat
  path : PathChoice
  usedMerge : Bool
  scratchLeft : Bool
  outCreated : Bool
deriving DecidableEq, Repr

/-- `cache.sort_unstable()` on bytes: any comparison sort; the sorted
permutation of a list of naturals is unique, so insertion sort is an exact
model. -/
def sortBytes (l : List Nat) : List Nat :=
  List.insertionSort (· ≤ ·) l

/-- Fuelled worker for `chunks`; the fuel is the list length, enough
because each step removes at least one element (`c ≥ 1`). -/
def chunksGo (c : Nat) : Nat → List Nat → List (List Nat)
  | _, [] => []
  | 0, _ :: _ => []
  | fuel + 1, a :: l => (a :: l).take c :: chunksGo c fuel ((a :: l).drop c)

/-- The chunking performed by the run-producer loop in `sort_file`
(lines 248-259): successive reads of at most `c` bytes until a read
returns `0`.  With `c = 0` the very first `read` into the empty buffer
returns `0`, so there are no chunks at all. -/
def chunks (c : Nat) (l : List Nat) : List (List Nat) :=
  if c = 0 then [] else chunksGo c l.length l

/-- `read_exact` from a file at absolute offset `off` into a buffer of
`n` bytes: fails iff the file is too short. -/
def readExact (f : List Nat) (off n : Nat) : Except Err (List Nat) :=
  if off + n ≤ f.length then .ok ((f.drop off).take n) else .error .ioError

/-- State of `FileSortHelper` (src/lib.rs lines 7-23).  `in_file` is the
byte content of the scratch file (the helper only reads it), `out_file` is
the bytes written to the output file so far.  The struct's `tmp_buffer`
(a scratch area for `read_exact`) and the two `PathBuf`s have no content
of their own and are not part of the pure state. -/
structure FileSortHelper where
  cache_size : Nat
  caches_num : Nat
  buffer_size : Nat
  in_file : List Nat
  out_file : List Nat
  in_buffers : List (List Nat)
  in_buffers_pos : List Nat
  in_buffers_index : List Nat
  out_buffer : List Nat
  slices_per_cache : Nat
  slices_per_last_cache : Nat
  last_slice_size : Nat
  last_slice_in_last_cache_size : Nat
deriving DecidableEq, Repr

/-- The scan inside `FileSortHelper::merge` (lines 75-86): fold over the
heads of the sub-buffers, starting from `(min_ind, min, changed) =
(0, u8::MAX, false)`, updating only on a strictly smaller byte.  `i0` is
the index of the first element of `hs` in the original buffer list. -/
def scanMinAux : List (Option Nat) → Nat → Nat × Nat × Bool → Nat × Nat × Bool
  | [], _, acc => acc
  | h :: t, i0, acc =>
    scanMinAux t (i0 + 1)
      (match h with
       | some m => if m < acc.2.1 then (i0, m, true) else acc
       | none => acc)

/-- The byte available at each run's cursor: `self.in_buffers[i].get(pos)`
for each `i` (lines 78-79). -/
def heads (bufs : List (List Nat)) (pos : List Nat) : List (Option Nat) :=
  (bufs.zip pos).map fun bp => bp.1[bp.2]?

namespace FileSortHelper

/-- `FileSortHelper::load_next_buffer` (lines 109-143): refill sub-buffer
`i` with the next slice of run `i`, read from absolute offset
`i * cache_size + slice_ind * buffer_size`, unless the run has no slice
left. -/
def load_next_buffer (s : FileSortHelper) (i : Nat) : Except Err FileSortHelper :=
  let is_last_buffer := i = s.caches_num - 1
  let slice_ind := s.in_buffers_index.getD i 0
  let has_next_slice :=
    if ¬ is_last_buffer then slice_ind ≠ s.slices_per_cache
    else slice_ind ≠ s.slices_per_last_cache
  if has_next_slice then
    let is_last_slice :=
      if ¬ is_last_buffer then slice_ind = s.slices_per_cache - 1
      else slice_ind = s.slices_per_last_cache - 1
    let read_len :=
      if ¬ is_last_slice then s.buffer_size
      else if ¬ is_last_buffer then s.last_slice_size
      else s.last_slice_in_last_cache_size
    match readExact s.in_file (i * s.cache_size + slice_ind * s.buffer_size) read_len with
    | .error e => .error e
    | .ok bytes =>
      .ok { s with
            in_buffers := s.in_buffers.set i bytes,
            in_buffers_pos := s.in_buffers_pos.set i 0,
            in_buffers_index := s.in_buffers_index.set i (slice_ind + 1) }
  else .ok s

/-- One iteration of the loop in `FileSortHelper::merge` (lines 74-101):
scan for the minimum available byte; if nothing was found return `none`
(the Rust `break`); otherwise push the byte, advance the winner's cursor,
refill its buffer if exhausted, and flush the output buffer if full. -/
def mergeStep (s : FileSortHelper) : Except Err (Option FileSortHelper) :=
  let r := scanMinAux (heads s.in_buffers s.in_buffers_pos) 0 (0, 255, false)
  if r.2.2 = false then .ok none
  else
    let min_ind := r.1
    let s1 := { s with
                out_buffer := s.out_buffer ++ [r.2.1],
                in_buffers_pos := s.in_buffers_pos.set min_ind
                  (s.in_buffers_pos.getD min_ind 0 + 1) }
    let s2E :=
      if s1.in_buffers_pos.getD min_ind 0 = (s1.in_buffers.getD min_ind []).length
      then s1.load_next_buffer min_ind else .ok s1
    s2E.bind fun s2 =>
      if s2.out_buffer.length = s2.buffer_size then
        .ok (some { s2 with out_file := s2.out_file ++ s2.out_buffer, out_buffer := [] })
      else .ok (some s2)

/-- The fuelled merge loop; each successful iteration is `mergeStep`. -/
def mergeLoop : Nat → FileSortHelper → Except Err FileSortHelper
  | 0, _ => .error .outOfFuel
  | fuel + 1, s =>
    match mergeStep s with
    | .error e => .error e
    | .ok none => .ok { s with out_file := s.out_file ++ s.out_buffer }
    | .ok (some s') => mergeLoop fuel s'

/-- `FileSortHelper::merge` (lines 73-106): run the loop, then write out
the remainder of the output buffer.  One fuel unit per input byte plus one
for the final (`changed = false`) scan always suffices for the executions
the program reaches; `Err.outOfFuel` marks the (unreachable) exhaustion. -/
def merge (s : FileSortHelper) : Except Err FileSortHelper :=
  mergeLoop (s.in_file.length + 1) s

/-- The body of `FileSortHelper::init_buffers` (lines 146-176) for buffers
`i, i+1, ...` (`fuel` many of them), with the scratch-file read cursor at
`fpos`: load the first slice of each run sequentially, seeking forward
past the rest of each non-final run. -/
def initLoop : Nat → Nat → Nat → FileSortHelper → Except Err FileSortHelper
  | 0, _, _, s => .ok s
  | fuel + 1, i, fpos, s =>
    let is_last_buffer := i = s.caches_num - 1
    let slice_ind := s.in_buffers_index.getD i 0
    let is_last_slice :=
      if ¬ is_last_buffer then slice_ind = s.slices_per_cache - 1
      else slice_ind = s.slices_per_last_cache - 1
    let read_len :=
      if ¬ is_last_slice then s.buffer_size
      else if ¬ is_last_buffer then s.last_slice_size
      else s.last_slice_in_last_cache_size
    match readExact s.in_file fpos read_len with
    | .error e => .error e
    | .ok bytes =>
      let s' := { s with
                  in_buffers := s.in_buffers.set i bytes,
                  in_buffers_pos := s.in_buffers_pos.set i 0,
                  in_buffers_index := s.in_buffers_index.set i (slice_ind + 1) }
      let fpos' :=
        if ¬ is_last_buffer
        then fpos + read_len + (s.cache_size - read_len + slice_ind * s.buffer_size)
        else fpos + read_len
      initLoop fuel (i + 1) fpos' s'

/-- `FileSortHelper::init_buffers` (lines 146-176). -/
def init_buffers (s : FileSortHelper) : Except Err FileSortHelper :=
  match initLoop s.caches_num 0 0 s with
  | .error e => .error e
  | .ok s' => .ok { s' with out_buffer := [] }

/-- `FileSortHelper::new` (lines 26-70).  The two `assert!`s become
`Err.panicked`.  (`cache_size - 1` underflows in Rust when
`cache_size = 0`, but `sort_file` never calls `new` then: a zero budget
makes the producer loop read nothing, and the `file_len <= 1` short
circuit returns first.) -/
def new (cache_size caches_num : Nat) (in_file : List Nat) (in_file_len : Nat) :
    Except Err FileSortHelper :=
  let max_caches_num := cache_size - 1
  if ¬ caches_num ≤ max_caches_num then .error (.panicked "File is too big.")
  else
    let buffer_size := cache_size / (caches_num + 1)
    if buffer_size = 0 then .error (.panicked "file is not empty; qed")
    else
      let sorter : FileSortHelper :=
        { cache_size := cache_size
          caches_num := caches_num
          buffer_size := buffer_size
          in_file := in_file
          out_file := []
          in_buffers := List.replicate caches_num []
          in_buffers_pos := List.replicate caches_num buffer_size
          in_buffers_index := List.replicate caches_num 0
          out_buffer := []
          slices_per_cache := (cache_size + (buffer_size - 1)) / buffer_size
          slices_per_last_cache :=
            let last_cache_size := cache_size - (cache_size * caches_num - in_file_len)
            (last_cache_size + (buffer_size - 1)) / buffer_size
          last_slice_size :=
            buffer_size - ((cache_size + (buffer_size - 1)) / buffer_size * buffer_size - cache_size)
          last_slice_in_last_cache_size :=
            let last_cache_size := cache_size - (cache_size * caches_num - in_file_len)
            buffer_size -
              ((last_cache_size + (buffer_size - 1)) / buffer_size * buffer_size - last_cache_size) }
      sorter.init_buffers

end FileSortHelper

/-- `sort_file` (lines 236-288), for executions in which every file
operation succeeds.  The producer loop reads chunks of at most
`cache_size` bytes, sorts each and appends it to the scratch file;
`file_len` is the sum of the read lengths and `caches_num` the number of
non-empty reads.  Then: trivial files return the input path (after
deleting the scratch file); a single run is renamed to `out.txt`;
otherwise the merge engine runs and its `Drop` deletes the scratch file. -/
def sort_file (input : List Nat) (cache_size : Nat) : Except Err SortOk :=
  let cs := chunks cache_size input
  let scratch := (cs.map sortBytes).flatten
  let file_len := scratch.length
  let caches_num := cs.length
  if file_len ≤ 1 then
    .ok { content := input, path := .original, usedMerge := false,
          scratchLeft := false, outCreated := false }
  else if caches_num = 1 then
    .ok { content := scratch, path := .outTxt, usedMerge := false,
          scratchLeft := false, outCreated := true }
  else
    match FileSortHelper.new cache_size caches_num scratch file_len with
    | .error e => .error e
    | .ok sorter =>
      match sorter.merge with
      | .error e => .error e
      | .ok s' =>
        .ok { content := s'.out_file, path := .outTxt, usedMerge := true,
              scratchLeft := false, outCreated := true }

example : sort_file [5, 3, 3, 1, 9, 2] 2 = .error (.panicked "File is too big.") := by rfl
example : sort_file [1, 0, 2, 3] 3 =
    .ok { content := [0, 1, 2, 3], path := .outTxt, usedMerge := true,
          scratchLeft := false, outCreated := true } := by rfl
example : sort_file [0, 255, 255, 0] 3 =
    .ok { content := [0, 0], path := .outTxt, usedMerge := true,
          scratchLeft := false, outCreated := true } := by rfl
example : sort_file [7] 5 =
    .ok { content := [7], path := .original, usedMerge := false,
          scratchLeft := false, outCreated := false } := by rfl
example : sort_file [2, 1] 2 =
    .ok { content := [1, 2], path := .outTxt, usedMerge := false,
          scratchLeft := false, outCreated := true } := by rfl
example : sort_file [0, 1] 0 =
    .ok { content := [0, 1], path := .original, usedMerge := false,
          scratchLeft := false, outCreated := false } := by rfl

/-! ## Instrumented model: failure schedule and scratch-file existence

`sort_fileE` repeats the control flow of `sort_file` while threading an
explicit environment: every fallible file operation (`open`, `create`,
`read`, `write_all`, `seek`, `read_exact`, `flush`, `remove_file`,
`rename`) consumes one operation index, and the schedule `failAt` makes
exactly that operation return an I/O error.  The state also records
whether the scratch file (`tmp.txt`) was created and whether it still
exists.  `failAt = none` is the failure-free execution. -/

/-- Environment of an execution: next operation index, which operation
index (if any) fails, whether the scratch file was ever created, and
whether it currently exists on disk. -/
structure St where
  nextOp : Nat
  failAt : Option Nat
  scratchMade : Bool
  scratchEx : Bool
deriving DecidableEq, Repr

/-- State-and-error monad for the instrumented model; the final state is
kept even when an error is propagated. -/
def EffM (α : Type) : Type := St → Except Err α × St

instance : Monad EffM where
  pure a := fun st => (.ok a, st)
  bind x f := fun st =>
    match x st with
    | (.ok a, st') => f a st'
    | (.error e, st') => (.error e, st')

/-- Propagate an error (a Rust `?` or panic). -/
def throwE {α : Type} (e : Err) : EffM α := fun st => (.error e, st)

/-- Read the environment. -/
def getE : EffM St := fun st => (.ok st, st)

/-- Update the environment. -/
def modifyE (f : St → St) : EffM Unit := fun st => (.ok (), f st)

/-- Run `x`; on error run the handler (used for the `Drop` of
`FileSortHelper`, which Rust runs while unwinding a `?` return). -/
def catchE {α : Type} (x : EffM α) (h : Err → EffM α) : EffM α := fun st =>
  match x st with
  | (.ok a, st') => (.ok a, st')
  | (.error e, st') => h e st'

/-- One fallible file operation whose error propagates (`?`). -/
def opE : EffM Unit := fun st =>
  (if st.failAt = some st.nextOp then .error .ioError else .ok (),
   { st with nextOp := st.nextOp + 1 })

/-- One file operation whose result is discarded (the
`let _ = fs::remove_file(..)` in `Drop`): reports success instead of
propagating. -/
def opSwallowE : EffM Bool := fun st =>
  (.ok (st.failAt ≠ some st.nextOp), { st with nextOp := st.nextOp + 1 })

/-- `read_exact` under the schedule: the syscall may fail by schedule, and
reading past end-of-file fails like in the pure model. -/
def readExactE (f : List Nat) (off n : Nat) : EffM (List Nat) := do
  opE
  match readExact f off n with
  | .ok bytes => pure bytes
  | .error e => throwE e

/-- `impl Drop for FileSortHelper` (lines 180-184): remove the scratch
file, ignoring failure. -/
def dropHelperE : EffM Unit := do
  let removed ← opSwallowE
  if removed then modifyE fun st => { st with scratchEx := false } else pure ()

/-- The run-producer loop of `sort_file` (lines 248-259) under the
schedule: each iteration is one `read` (and one `write_all` when the read
returned data).  Returns `(file_len, caches_num, scratch content)`. -/
def producerLoopE (cache_size : Nat) :
    Nat → List Nat → Nat × Nat × List Nat → EffM (Nat × Nat × List Nat)
  | 0, _, _ => throwE .outOfFuel
  | fuel + 1, remaining, acc => do
    opE
    let n := min cache_size remaining.length
    if n = 0 then pure acc
    else do
      opE
      producerLoopE cache_size fuel (remaining.drop cache_size)
        (acc.1 + n, acc.2.1 + 1, acc.2.2 ++ sortBytes (remaining.take cache_size))

/-- `load_next_buffer` under the schedule: one `seek`, one `read_exact`. -/
def load_next_bufferE (s : FileSortHelper) (i : Nat) : EffM FileSortHelper :=
  let is_last_buffer := i = s.caches_num - 1
  let slice_ind := s.in_buffers_index.getD i 0
  let has_next_slice :=
    if ¬ is_last_buffer then slice_ind ≠ s.slices_per_cache
    else slice_ind ≠ s.slices_per_last_cache
  if has_next_slice then do
    let is_last_slice :=
      if ¬ is_last_buffer then slice_ind = s.slices_per_cache - 1
      else slice_ind = s.slices_per_last_cache - 1
    let read_len :=
      if ¬ is_last_slice then s.buffer_size
      else if ¬ is_last_buffer then s.last_slice_size
      else s.last_slice_in_last_cache_size
    opE
    let bytes ← readExactE s.in_file (i * s.cache_size + slice_ind * s.buffer_size) read_len
    pure { s with
           in_buffers := s.in_buffers.set i bytes,
           in_buffers_pos := s.in_buffers_pos.set i 0,
           in_buffers_index := s.in_buffers_index.set i (slice_ind + 1) }
  else pure s

/-- One iteration of the merge loop under the schedule (the flush of a
full output buffer is one `write_all`). -/
def mergeStepE (s : FileSortHelper) : EffM (Option FileSortHelper) :=
  let r := scanMinAux (heads s.in_buffers s.in_buffers_pos) 0 (0, 255, false)
  if r.2.2 = false then pure none
  else do
    let min_ind := r.1
    let s1 := { s with
                out_buffer := s.out_buffer ++ [r.2.1],
                in_buffers_pos := s.in_buffers_pos.set min_ind
                  (s.in_buffers_pos.getD min_ind 0 + 1) }
    let s2 ←
      if s1.in_buffers_pos.getD min_ind 0 = (s1.in_buffers.getD min_ind []).length
      then load_next_bufferE s1 min_ind else pure s1
    if s2.out_buffer.length = s2.buffer_size then do
      opE
      pure (some { s2 with out_file := s2.out_file ++ s2.out_buffer, out_buffer := [] })
    else pure (some s2)

/-- The merge loop under the schedule; the `none` exit performs the final
`write_all` and `flush` (lines 103-104). -/
def mergeLoopE : Nat → FileSortHelper → EffM FileSortHelper
  | 0, _ => throwE .outOfFuel
  | fuel + 1, s => do
    match ← mergeStepE s with
    | none => do
      opE
      opE
      pure { s with out_file := s.out_file ++ s.out_buffer }
    | some s' => mergeLoopE fuel s'

/-- `FileSortHelper::merge` under the schedule. -/
def mergeE (s : FileSortHelper) : EffM FileSortHelper :=
  mergeLoopE (s.in_file.length + 1) s

/-- `init_buffers` under the schedule: per buffer one `read_exact` and,
for non-final buffers, one `seek`. -/
def initLoopE : Nat → Nat → Nat → FileSortHelper → EffM FileSortHelper
  | 0, _, _, s => pure s
  | fuel + 1, i, fpos, s => do
    let is_last_buffer := i = s.caches_num - 1
    let slice_ind := s.in_buffers_index.getD i 0
    let is_last_slice :=
      if ¬ is_last_buffer then slice_ind = s.slices_per_cache - 1
      else slice_ind = s.slices_per_last_cache - 1
    let read_len :=
      if ¬ is_last_slice then s.buffer_size
      else if ¬ is_last_buffer then s.last_slice_size
      else s.last_slice_in_last_cache_size
    let bytes ← readExactE s.in_file fpos read_len
    let s' := { s with
                in_buffers := s.in_buffers.set i bytes,
                in_buffers_pos := s.in_buffers_pos.set i 0,
                in_buffers_index := s.in_buffers_index.set i (slice_ind + 1) }
    if ¬ is_last_buffer then do
      opE
      initLoopE fuel (i + 1)
        (fpos + read_len + (s.cache_size - read_len + slice_ind * s.buffer_size)) s'
    else initLoopE fuel (i + 1) (fpos + read_len) s'

/-- `FileSortHelper::new` under the schedule.  The `assert!`s panic
before the struct exists, so no `Drop` runs for them; a failure inside
`init_buffers` propagates out of `new` by `?`, and that return path drops
the already-constructed helper, removing the scratch file. -/
def newE (cache_size caches_num : Nat) (in_file : List Nat) (in_file_len : Nat) :
    EffM FileSortHelper :=
  let max_caches_num := cache_size - 1
  if ¬ caches_num ≤ max_caches_num then throwE (.panicked "File is too big.")
  else
    let buffer_size := cache_size / (caches_num + 1)
    if buffer_size = 0 then throwE (.panicked "file is not empty; qed")
    else
      let sorter : FileSortHelper :=
        { cache_size := cache_size
          caches_num := caches_num
          buffer_size := buffer_size
          in_file := in_file
          out_file := []
          in_buffers := List.replicate caches_num []
          in_buffers_pos := List.replicate caches_num buffer_size
          in_buffers_index := List.replicate caches_num 0
          out_buffer := []
          slices_per_cache := (cache_size + (buffer_size - 1)) / buffer_size
          slices_per_last_cache :=
            let last_cache_size := cache_size - (cache_size * caches_num - in_file_len)
            (last_cache_size + (buffer_size - 1)) / buffer_size
          last_slice_size :=
            buffer_size - ((cache_size + (buffer_size - 1)) / buffer_size * buffer_size - cache_size)
          last_slice_in_last_cache_size :=
            let last_cache_size := cache_size - (cache_size * caches_num - in_file_len)
            buffer_size -
              ((last_cache_size + (buffer_size - 1)) / buffer_size * buffer_size - last_cache_size) }
      catchE
        (do
          let s' ← initLoopE sorter.caches_num 0 0 sorter
          pure { s' with out_buffer := [] })
        (fun e => do
          dropHelperE
          throwE e)

/-- `sort_file` under the schedule. -/
def sort_fileE (input : List Nat) (cache_size : Nat) : EffM SortOk := do
  opE
  opE
  modifyE fun st => { st with scratchMade := true, scratchEx := true }
  let acc ← producerLoopE cache_size (input.length + 1) input (0, 0, [])
  let file_len := acc.1
  let caches_num := acc.2.1
  let scratch := acc.2.2
  if file_len ≤ 1 then do
    opE
    modifyE fun st => { st with scratchEx := false }
    let st ← getE
    pure { content := input, path := .original, usedMerge := false,
           scratchLeft := st.scratchEx, outCreated := false }
  else if caches_num = 1 then do
    opE
    modifyE fun st => { st with scratchEx := false }
    let st ← getE
    pure { content := scratch, path := .outTxt, usedMerge := false,
           scratchLeft := st.scratchEx, outCreated := true }
  else do
    opE
    opE
    let sorter ← newE cache_size caches_num scratch file_len
    catchE
      (do
        let s' ← mergeE sorter
        dropHelperE
        let st ← getE
        pure { content := s'.out_file, path := .outTxt, usedMerge := true,
               scratchLeft := st.scratchEx, outCreated := true })
      (fun e => do
        dropHelperE
        throwE e)

/-- Run the instrumented model from a fresh environment with the given
failure schedule. -/
def sort_fileRunE (input : List Nat) (cache_size : Nat) (failAt : Option Nat) :
    Except Err SortOk × St :=
  sort_fileE input cache_size { nextOp := 0, failAt := failAt, scratchMade := false, scratchEx := false }

example :
    sort_fileRunE [0, 1] 2 (some 2) =
      (.error .ioError,
       { nextOp := 3, failAt := some 2, scratchMade := true, scratchEx := true }) := by rfl
example :
    sort_fileRunE [9, 8] 5 none =
      (.ok { content := [8, 9], path := .outTxt, usedMerge := false,
             scratchLeft := false, outCreated := true },
       { nextOp := 6, failAt := none, scratchMade := true, scratchEx := false }) := by rfl

/-! ## Arithmetic facts about the ceiling divisions in `FileSortHelper::new`

The code computes `ceil(n / d)` as `(n + (d - 1)) / d` for the slice
counts, and last-slice lengths as `d - (q * d - n)`.  The lemmas below
package the properties the invariant proofs need; they are all obtained by
exposing `q * d` through `Nat.div_add_mod` and finishing linearly. -/

theorem ceil_le_mul (d n : Nat) (hd : 1 ≤ d) : n ≤ (n + (d - 1)) / d * d := by
  have h := Nat.div_add_mod (n + (d - 1)) d
  have hr : (n + (d - 1)) % d < d := Nat.mod_lt _ hd
  rw [mul_comm]
  generalize d * ((n + (d - 1)) / d) = P at h ⊢
  omega

theorem ceil_mul_lt (d n : Nat) (hd : 1 ≤ d) : (n + (d - 1)) / d * d < n + d := by
  have h := Nat.div_add_mod (n + (d - 1)) d
  have hr : (n + (d - 1)) % d < d := Nat.mod_lt _ hd
  rw [mul_comm]
  generalize d * ((n + (d - 1)) / d) = P at h ⊢
  omega

theorem ceil_pos (d n : Nat) (hd : 1 ≤ d) (hn : 1 ≤ n) : 1 ≤ (n + (d - 1)) / d := by
  have h := Nat.div_add_mod (n + (d - 1)) d
  have hr : (n + (d - 1)) % d < d := Nat.mod_lt _ hd
  rcases Nat.eq_zero_or_pos ((n + (d - 1)) / d) with h0 | h1
  · rw [h0, mul_zero] at h; omega
  · exact h1

theorem ceil_pred_mul_lt (d n : Nat) (hd : 1 ≤ d) (hn : 1 ≤ n) :
    ((n + (d - 1)) / d - 1) * d < n := by
  have h := Nat.div_add_mod (n + (d - 1)) d
  have hr : (n + (d - 1)) % d < d := Nat.mod_lt _ hd
  have hs : ((n + (d - 1)) / d - 1) * d = (n + (d - 1)) / d * d - 1 * d := Nat.sub_mul _ _ _
  rw [hs, one_mul, mul_comm]
  generalize d * ((n + (d - 1)) / d) = P at h ⊢
  omega

theorem mul_lt_of_lt_ceil (d n j : Nat) (hd : 1 ≤ d) (hn : 1 ≤ n)
    (hj : j < (n + (d - 1)) / d) : j * d < n :=
  lt_of_le_of_lt (Nat.mul_le_mul_right d (by omega : j ≤ (n + (d - 1)) / d - 1))
    (ceil_pred_mul_lt d n hd hn)

theorem two_le_ceil (d n : Nat) (hd : 1 ≤ d) (h : d < n) : 2 ≤ (n + (d - 1)) / d := by
  have h1 := ceil_le_mul d n hd
  rcases Nat.lt_or_ge ((n + (d - 1)) / d) 2 with h2 | h2
  · have : (n + (d - 1)) / d * d ≤ 1 * d :=
      Nat.mul_le_mul_right d (by omega : (n + (d - 1)) / d ≤ 1)
    rw [one_mul] at this
    omega
  · exact h2

theorem ceil_le_one (d n : Nat) (hd : 1 ≤ d) (h : (n + (d - 1)) / d ≤ 1) : n ≤ d := by
  by_contra hc
  exact absurd (two_le_ceil d n hd (by omega)) (by omega)

/-- The `last_slice_size` expression `d - (q * d - n)` with
`q = ceil(n / d)` equals the remainder `n - (q - 1) * d` of the final
slice. -/
theorem last_slice_eq (d n : Nat) (hd : 1 ≤ d) (hn : 1 ≤ n) :
    d - ((n + (d - 1)) / d * d - n) = n - ((n + (d - 1)) / d - 1) * d := by
  have h1 := ceil_le_mul d n hd
  have h2 := ceil_mul_lt d n hd
  have h3 := ceil_pos d n hd hn
  have hs : ((n + (d - 1)) / d - 1) * d = (n + (d - 1)) / d * d - 1 * d := Nat.sub_mul _ _ _
  have hd' : d ≤ (n + (d - 1)) / d * d := by
    calc d = 1 * d := (one_mul d).symm
    _ ≤ (n + (d - 1)) / d * d := Nat.mul_le_mul_right d h3
  rw [hs, one_mul]
  generalize (n + (d - 1)) / d * d = P at h1 h2 hd' ⊢
  omega

/-! ## Structure of the run-producer chunking -/

theorem chunksGo_fuel_irrel (c : Nat) (hc : 0 < c) :
    ∀ f₁ f₂ l, l.length ≤ f₁ → l.length ≤ f₂ →
      chunksGo c f₁ l = chunksGo c f₂ l := by
  intro f₁
  induction f₁ with
  | zero =>
    intro f₂ l h1 _
    have : l = [] := List.length_eq_zero.mp (Nat.le_zero.mp h1)
    subst this
    cases f₂ <;> rfl
  | succ f ih =>
    intro f₂ l h1 h2
    cases l with
    | nil => cases f₂ <;> rfl
    | cons a l' =>
      cases f₂ with
      | zero => simp at h2
      | succ f₂' =>
        simp only [chunksGo]
        congr 1
        have hlen : ((a :: l').drop c).length ≤ f := by
          simp only [List.length_drop, List.length_cons] at *
          omega
        have hlen2 : ((a :: l').drop c).length ≤ f₂' := by
          simp only [List.length_drop, List.length_cons] at *
          omega
        exact ih f₂' _ hlen hlen2

theorem chunks_nil (c : Nat) : chunks c [] = [] := by
  unfold chunks
  split <;> rfl

theorem chunks_cons (c : Nat) (hc : 0 < c) (a : Nat) (l : List Nat) :
    chunks c (a :: l) = (a :: l).take c :: chunks c ((a :: l).drop c) := by
  unfold chunks
  rw [if_neg (by omega), if_neg (by omega)]
  simp only [List.length_cons, chunksGo]
  congr 1
  exact chunksGo_fuel_irrel c hc l.length ((a :: l).drop c).length _
    (by simp [List.length_drop]; omega) le_rfl

theorem chunks_eq_nil_iff (c : Nat) (hc : 0 < c) (l : List Nat) :
    chunks c l = [] ↔ l = [] := by
  cases l with
  | nil => simp [chunks_nil]
  | cons a l' => simp [chunks_cons c hc]

theorem chunks_flatten (c : Nat) (hc : 0 < c) (l : List Nat) :
    (chunks c l).flatten = l := by
  have key : ∀ n l2, List.length l2 ≤ n → (chunks c l2).flatten = l2 := by
    intro n
    induction n with
    | zero =>
      intro l2 h
      have : l2 = [] := List.length_eq_zero.mp (Nat.le_zero.mp h)
      simp [this, chunks_nil]
    | succ n ih =>
      intro l2 h
      cases l2 with
      | nil => simp [chunks_nil]
      | cons a l' =>
        rw [chunks_cons c hc]
        simp only [List.flatten_cons]
        rw [ih ((a :: l').drop c) (by simp [List.length_drop] at *; omega)]
        exact List.take_append_drop c (a :: l')
  exact key l.length l le_rfl

theorem chunks_mem_len (c : Nat) (hc : 0 < c) (l : List Nat) :
    ∀ ch ∈ chunks c l, 1 ≤ ch.length ∧ ch.length ≤ c := by
  have key : ∀ n l2, List.length l2 ≤ n →
      ∀ ch ∈ chunks c l2, 1 ≤ ch.length ∧ ch.length ≤ c := by
    intro n
    induction n with
    | zero =>
      intro l2 h ch hm
      have : l2 = [] := List.length_eq_zero.mp (Nat.le_zero.mp h)
      subst this
      simp [chunks_nil] at hm
    | succ n ih =>
      intro l2 h ch hm
      cases l2 with
      | nil => simp [chunks_nil] at hm
      | cons a l' =>
        rw [chunks_cons c hc] at hm
        rcases List.mem_cons.mp hm with h1 | h1
        · subst h1
          constructor
          · simp [List.length_take]; omega
          · simp [List.length_take]
        · exact ih _ (by simp [List.length_drop] at *; omega) ch h1
  exact key l.length l le_rfl

theorem chunks_full (c : Nat) (hc : 0 < c) (l : List Nat) :
    ∀ i, i + 1 < (chunks c l).length → ((chunks c l).getD i []).length = c := by
  have key : ∀ n l2, List.length l2 ≤ n →
      ∀ i, i + 1 < (chunks c l2).length → ((chunks c l2).getD i []).length = c := by
    intro n
    induction n with
    | zero =>
      intro l2 h i hi
      have : l2 = [] := List.length_eq_zero.mp (Nat.le_zero.mp h)
      subst this
      simp [chunks_nil] at hi
    | succ n ih =>
      intro l2 h i hi
      cases l2 with
      | nil => simp [chunks_nil] at hi
      | cons a l' =>
        rw [chunks_cons c hc] at hi ⊢
        cases i with
        | zero =>
          simp only [List.length_cons] at hi
          have hne : chunks c ((a :: l').drop c) ≠ [] := by
            intro hemp
            rw [hemp] at hi
            simp at hi
          have hdne : (a :: l').drop c ≠ [] := by
            intro hemp
            rw [hemp, chunks_nil] at hne
            exact hne rfl
          have : c < (a :: l').length := by
            by_contra hle
            exact hdne (List.drop_eq_nil_of_le (by omega))
          simp only [List.length_cons] at this
          simp [List.length_take, List.length_cons]
          omega
        | succ i' =>
          simp only [List.getD_cons_succ]
          exact ih _ (by simp [List.length_drop] at *; omega) i'
            (by simp only [List.length_cons] at hi; omega)
  exact key l.length l le_rfl

/-! ## Correctness of the minimum scan -/

theorem scanMinAux_cons_some (t : List (Option Nat)) (i0 : Nat) (acc : Nat × Nat × Bool)
    (m : Nat) :
    scanMinAux (some m :: t) i0 acc =
      scanMinAux t (i0 + 1) (if m < acc.2.1 then (i0, m, true) else acc) := rfl

theorem scanMinAux_cons_none (t : List (Option Nat)) (i0 : Nat) (acc : Nat × Nat × Bool) :
    scanMinAux (none :: t) i0 acc = scanMinAux t (i0 + 1) acc := rfl

theorem scanMinAux_le_acc :
    ∀ (hs : List (Option Nat)) (i0 : Nat) (acc : Nat × Nat × Bool),
      (scanMinAux hs i0 acc).2.1 ≤ acc.2.1 := by
  intro hs
  induction hs with
  | nil => intro i0 acc; exact le_rfl
  | cons h t ih =>
    intro i0 acc
    cases h with
    | none => rw [scanMinAux_cons_none]; exact ih (i0 + 1) acc
    | some m =>
      rw [scanMinAux_cons_some]
      by_cases hm : m < acc.2.1
      · rw [if_pos hm]
        exact le_trans (ih (i0 + 1) (i0, m, true)) (le_of_lt hm)
      · rw [if_neg hm]
        exact ih (i0 + 1) acc

theorem scanMinAux_le_head :
    ∀ (hs : List (Option Nat)) (i0 : Nat) (acc : Nat × Nat × Bool) (j : Nat) (v : Nat),
      hs[j]? = some (some v) → (scanMinAux hs i0 acc).2.1 ≤ v := by
  intro hs
  induction hs with
  | nil => intro i0 acc j v h; simp at h
  | cons h t ih =>
    intro i0 acc j v hj
    cases j with
    | zero =>
      simp only [List.getElem?_cons_zero, Option.some.injEq] at hj
      subst hj
      rw [scanMinAux_cons_some]
      by_cases hm : v < acc.2.1
      · rw [if_pos hm]
        exact scanMinAux_le_acc t (i0 + 1) (i0, v, true)
      · rw [if_neg hm]
        exact le_trans (scanMinAux_le_acc t (i0 + 1) acc) (by omega)
    | succ j' =>
      simp only [List.getElem?_cons_succ] at hj
      cases h with
      | none => rw [scanMinAux_cons_none]; exact ih (i0 + 1) acc j' v hj
      | some m =>
        rw [scanMinAux_cons_some]
        by_cases hm : m < acc.2.1
        · rw [if_pos hm]; exact ih (i0 + 1) (i0, m, true) j' v hj
        · rw [if_neg hm]; exact ih (i0 + 1) acc j' v hj

theorem scanMinAux_found :
    ∀ (hs : List (Option Nat)) (i0 : Nat) (acc : Nat × Nat × Bool),
      (scanMinAux hs i0 acc).2.2 = true →
      ((scanMinAux hs i0 acc).1 = acc.1 ∧ (scanMinAux hs i0 acc).2.1 = acc.2.1 ∧
        acc.2.2 = true) ∨
      ∃ j, hs[j]? = some (some ((scanMinAux hs i0 acc).2.1)) ∧
        (scanMinAux hs i0 acc).1 = i0 + j := by
  intro hs
  induction hs with
  | nil =>
    intro i0 acc h
    exact Or.inl ⟨rfl, rfl, h⟩
  | cons h t ih =>
    intro i0 acc htrue
    cases h with
    | none =>
      rw [scanMinAux_cons_none] at htrue ⊢
      rcases ih (i0 + 1) acc htrue with ⟨h1, h2, h3⟩ | ⟨j, h1, h2⟩
      · exact Or.inl ⟨h1, h2, h3⟩
      · exact Or.inr ⟨j + 1, by simpa using h1, by omega⟩
    | some m =>
      rw [scanMinAux_cons_some] at htrue ⊢
      by_cases hm : m < acc.2.1
      · rw [if_pos hm] at htrue ⊢
        rcases ih (i0 + 1) (i0, m, true) htrue with ⟨h1, h2, _⟩ | ⟨j, h1, h2⟩
        · exact Or.inr ⟨0, by simp [h2], by simpa using h1⟩
        · exact Or.inr ⟨j + 1, by simpa using h1, by omega⟩
      · rw [if_neg hm] at htrue ⊢
        rcases ih (i0 + 1) acc htrue with ⟨h1, h2, h3⟩ | ⟨j, h1, h2⟩
        · exact Or.inl ⟨h1, h2, h3⟩
        · exact Or.inr ⟨j + 1, by simpa using h1, by omega⟩

/-- In `heads`, entry `j` is exactly `in_buffers[j].get(in_buffers_pos[j])`. -/
theorem heads_getElem (bufs : List (List Nat)) (pos : List Nat) (j : Nat)
    (hj : j < bufs.length) (hj' : j < pos.length) :
    (heads bufs pos)[j]? = some ((bufs.getD j [])[pos.getD j 0]?) := by
  unfold heads
  rw [List.getElem?_map]
  rw [List.getElem?_eq_getElem (by simp [List.length_zip]; omega)]
  simp only [List.getElem_zip, Option.map_some']
  rw [List.getD_eq_getElem bufs [] hj, List.getD_eq_getElem pos 0 hj']

theorem heads_length (bufs : List (List Nat)) (pos : List Nat) :
    (heads bufs pos).length = min bufs.length pos.length := by
  simp [heads, List.length_zip]

/-- Dropping whole runs: if every run before the last has length `C`,
then dropping `i * C` bytes from the concatenation drops the first `i`
runs. -/
theorem flatten_drop_of_full (C : Nat) :
    ∀ (rs : List (List Nat)),
      (∀ j, j + 1 < rs.length → (rs.getD j []).length = C) →
      ∀ i, i < rs.length → rs.flatten.drop (i * C) = (rs.drop i).flatten := by
  intro rs
  induction rs with
  | nil => intro _ i hi; simp at hi
  | cons r rs' ih =>
    intro hfull i hi
    cases i with
    | zero => simp
    | succ i' =>
      have hr : r.length = C := by
        have := hfull 0 (by simp only [List.length_cons] at hi ⊢; omega)
        simpa using this
      simp only [List.flatten_cons, List.drop_succ_cons]
      have : (i' + 1) * C = r.length + i' * C := by rw [hr]; ring
      rw [this, List.drop_append]
      exact ih (fun j hj => by
          have := hfull (j + 1) (by simp only [List.length_cons] at hj ⊢; omega)
          simpa using this)
        i' (by simp only [List.length_cons] at hi; omega)

/-! ## The merge-engine invariant

`MInv runs s` relates a `FileSortHelper` state to the logical list of
sorted runs whose concatenation is the scratch file.  It records the
shape facts established by `sort_file`/`new`, the bookkeeping facts that
`init_buffers` establishes and every `mergeStep` preserves — sub-buffer
`i` holds slice `in_buffers_index[i] - 1` of run `i` — and the ordering
facts that make the emitted output sorted. -/

/-- Run `i` (out-of-range indices give `[]`). -/
def runAt (runs : List (List Nat)) (i : Nat) : List Nat := runs.getD i []

namespace FileSortHelper

/-- Current content of sub-buffer `i`. -/
def bufAt (s : FileSortHelper) (i : Nat) : List Nat := s.in_buffers.getD i []

/-- Current cursor of sub-buffer `i`. -/
def posAt (s : FileSortHelper) (i : Nat) : Nat := s.in_buffers_pos.getD i 0

/-- Number of slices of run `i` loaded so far. -/
def idxAt (s : FileSortHelper) (i : Nat) : Nat := s.in_buffers_index.getD i 0

/-- Total number of slices of run `i` (`slices_per_last_cache` for the
final run, `slices_per_cache` otherwise). -/
def slicesAt (s : FileSortHelper) (i : Nat) : Nat :=
  if i = s.caches_num - 1 then s.slices_per_last_cache else s.slices_per_cache

/-- Number of bytes of run `i` the merge has fully consumed. -/
def consumedAt (s : FileSortHelper) (i : Nat) : Nat :=
  (s.idxAt i - 1) * s.buffer_size + s.posAt i

end FileSortHelper

/-- The not-yet-consumed suffix of run `i`. -/
def availAt (runs : List (List Nat)) (s : FileSortHelper) (i : Nat) : List Nat :=
  (runAt runs i).drop (s.consumedAt i)

/-- The static part of the invariant: list lengths, the constants
computed by `new` (with `last_slice_size` already rewritten into its
remainder form), and the shape of the runs.  Nothing here mentions the
cursors, so buffer/cursor updates preserve it trivially. -/
structure SInv (runs : List (List Nat)) (s : FileSortHelper) : Prop where
  hK : 2 ≤ s.caches_num
  hruns_len : runs.length = s.caches_num
  hbufs_len : s.in_buffers.length = s.caches_num
  hpos_len : s.in_buffers_pos.length = s.caches_num
  hidx_len : s.in_buffers_index.length = s.caches_num
  hfile : s.in_file = runs.flatten
  hC : 1 ≤ s.cache_size
  hB : s.buffer_size = s.cache_size / (s.caches_num + 1)
  hB1 : 1 ≤ s.buffer_size
  hfull : ∀ i, i + 1 < s.caches_num → (runAt runs i).length = s.cache_size
  hlast1 : 1 ≤ (runAt runs (s.caches_num - 1)).length
  hlastC : (runAt runs (s.caches_num - 1)).length ≤ s.cache_size
  hspc : s.slices_per_cache = (s.cache_size + (s.buffer_size - 1)) / s.buffer_size
  hsplc : s.slices_per_last_cache =
    ((runAt runs (s.caches_num - 1)).length + (s.buffer_size - 1)) / s.buffer_size
  hlss : s.last_slice_size =
    s.cache_size - (s.slices_per_cache - 1) * s.buffer_size
  hlsil : s.last_slice_in_last_cache_size =
    (runAt runs (s.caches_num - 1)).length -
      (s.slices_per_last_cache - 1) * s.buffer_size
  hsorted_runs : ∀ l ∈ runs, List.Sorted (· ≤ ·) l

namespace SInv

variable {runs : List (List Nat)} {s : FileSortHelper}

/-- `(caches_num + 1) * buffer_size ≤ cache_size`: the stated memory
budget of the merge phase. -/
theorem hBC (inv : SInv runs s) :
    (s.caches_num + 1) * s.buffer_size ≤ s.cache_size := by
  rw [inv.hB, mul_comm]
  exact Nat.div_mul_le_self _ _

theorem hB_lt_C (inv : SInv runs s) : s.buffer_size < s.cache_size := by
  have h := inv.hBC
  have hK := inv.hK
  have hB1 := inv.hB1
  have : 3 * s.buffer_size ≤ (s.caches_num + 1) * s.buffer_size :=
    Nat.mul_le_mul_right _ (by omega)
  omega

theorem runLen_pos (inv : SInv runs s) : ∀ i, i < s.caches_num →
    1 ≤ (runAt runs i).length := by
  intro i hi
  rcases Nat.lt_or_ge (i + 1) s.caches_num with h | h
  · rw [inv.hfull i h]; exact inv.hC
  · have : i = s.caches_num - 1 := by omega
    rw [this]; exact inv.hlast1

theorem runLen_le (inv : SInv runs s) : ∀ i, i < s.caches_num →
    (runAt runs i).length ≤ s.cache_size := by
  intro i hi
  rcases Nat.lt_or_ge (i + 1) s.caches_num with h | h
  · rw [inv.hfull i h]
  · have : i = s.caches_num - 1 := by omega
    rw [this]; exact inv.hlastC

/-- Uniform description of the slice count of run `i` as a ceiling. -/
theorem slices_eq (inv : SInv runs s) : ∀ i, i < s.caches_num →
    s.slicesAt i = ((runAt runs i).length + (s.buffer_size - 1)) / s.buffer_size := by
  intro i hi
  unfold FileSortHelper.slicesAt
  by_cases h : i = s.caches_num - 1
  · rw [if_pos h, h]; exact inv.hsplc
  · rw [if_neg h]
    have : i + 1 < s.caches_num := by omega
    rw [inv.hfull i this]; exact inv.hspc

theorem slices_pos (inv : SInv runs s) : ∀ i, i < s.caches_num →
    1 ≤ s.slicesAt i := by
  intro i hi
  rw [inv.slices_eq i hi]
  exact ceil_pos _ _ inv.hB1 (inv.runLen_pos i hi)

theorem run_sorted (inv : SInv runs s) : ∀ i, i < s.caches_num →
    List.Sorted (· ≤ ·) (runAt runs i) := by
  intro i hi
  apply inv.hsorted_runs
  unfold runAt
  rw [List.getD_eq_getElem runs [] (by rw [inv.hruns_len]; exact hi)]
  exact List.getElem_mem _

end SInv

/-- The full merge-loop invariant: the static facts plus the cursor
bookkeeping and the ordering facts about the emitted output. -/
structure MInv (runs : List (List Nat)) (s : FileSortHelper) : Prop where
  st : SInv runs s
  hidx1 : ∀ i, i < s.caches_num → 1 ≤ s.idxAt i
  hidxle : ∀ i, i < s.caches_num → s.idxAt i ≤ s.slicesAt i
  hbuf : ∀ i, i < s.caches_num →
    s.bufAt i = ((runAt runs i).drop ((s.idxAt i - 1) * s.buffer_size)).take s.buffer_size
  hposle : ∀ i, i < s.caches_num → s.posAt i ≤ (s.bufAt i).length
  hexh : ∀ i, i < s.caches_num → s.posAt i = (s.bufAt i).length → s.idxAt i = s.slicesAt i
  hout_sorted : List.Sorted (· ≤ ·) (s.out_file ++ s.out_buffer)
  hout_le : ∀ x ∈ s.out_file ++ s.out_buffer, ∀ i, i < s.caches_num →
    ∀ y ∈ availAt runs s i, x ≤ y
  hout_lt : s.out_buffer.length < s.buffer_size

namespace MInv

variable {runs : List (List Nat)} {s : FileSortHelper}

theorem buf_len (inv : MInv runs s) : ∀ i, i < s.caches_num →
    (s.bufAt i).length =
      min s.buffer_size ((runAt runs i).length - (s.idxAt i - 1) * s.buffer_size) := by
  intro i hi
  rw [inv.hbuf i hi]
  simp [List.length_take, List.length_drop]

/-- The consumed prefix never exceeds the run. -/
theorem consumed_le (inv : MInv runs s) : ∀ i, i < s.caches_num →
    s.consumedAt i ≤ (runAt runs i).length := by
  intro i hi
  unfold FileSortHelper.consumedAt
  have h1 := inv.hposle i hi
  have h2 := inv.buf_len i hi
  have h3 : (s.idxAt i - 1) * s.buffer_size < (runAt runs i).length := by
    have := inv.hidxle i hi
    have h1' := inv.hidx1 i hi
    have hsl := inv.st.slices_eq i hi
    apply mul_lt_of_lt_ceil s.buffer_size _ _ inv.st.hB1 (inv.st.runLen_pos i hi)
    omega
  omega

/-- The byte at the cursor of sub-buffer `i` is the head of the
unconsumed suffix of run `i`. -/
theorem head_eq (inv : MInv runs s) : ∀ i, i < s.caches_num →
    (s.bufAt i)[s.posAt i]? = (availAt runs s i).head? := by
  intro i hi
  unfold availAt FileSortHelper.consumedAt
  rcases Nat.lt_or_ge (s.posAt i) (s.bufAt i).length with hlt | hge
  · have hposB : s.posAt i < s.buffer_size := by
      have h := inv.buf_len i hi
      omega
    rw [inv.hbuf i hi]
    rw [List.getElem?_take, if_pos hposB, List.getElem?_drop,
      List.head?_eq_getElem?, List.getElem?_drop]
    simp
  · have heq : s.posAt i = (s.bufAt i).length := le_antisymm (inv.hposle i hi) hge
    have hidx := inv.hexh i hi heq
    have hlen := inv.buf_len i hi
    have hceil_le : (runAt runs i).length ≤ s.slicesAt i * s.buffer_size := by
      rw [inv.st.slices_eq i hi]
      exact ceil_le_mul _ _ inv.st.hB1
    have hceil_lt : (s.slicesAt i - 1) * s.buffer_size < (runAt runs i).length := by
      rw [inv.st.slices_eq i hi]
      exact ceil_pred_mul_lt _ _ inv.st.hB1 (inv.st.runLen_pos i hi)
    have hsl1 : 1 ≤ s.slicesAt i := inv.st.slices_pos i hi
    have hmul : s.slicesAt i * s.buffer_size =
        (s.slicesAt i - 1) * s.buffer_size + s.buffer_size := by
      have h1 : s.slicesAt i - 1 + 1 = s.slicesAt i := by omega
      calc s.slicesAt i * s.buffer_size
          = (s.slicesAt i - 1 + 1) * s.buffer_size := by rw [h1]
        _ = (s.slicesAt i - 1) * s.buffer_size + s.buffer_size := by
            rw [Nat.succ_mul]
    rw [List.getElem?_eq_none (by omega)]
    have hdrop : (runAt runs i).length ≤ (s.idxAt i - 1) * s.buffer_size + s.posAt i := by
      rw [hidx] at hlen
      rw [hidx, heq]
      omega
    rw [List.drop_eq_nil_of_le hdrop]
    rfl

end MInv

/-! ## Helper lemmas for list updates and slice arithmetic -/

theorem getD_set_self {α : Type} (l : List α) (i : Nat) (a d : α) (h : i < l.length) :
    (l.set i a).getD i d = a := by
  simp [List.getD, List.getElem?_set_self', List.getElem?_eq_getElem h]

theorem getD_set_ne {α : Type} (l : List α) (i j : Nat) (a d : α) (h : j ≠ i) :
    (l.set i a).getD j d = l.getD j d := by
  simp [List.getD, List.getElem?_set_ne (Ne.symm h)]

theorem except_bind_ok {α β : Type} (a : α) (f : α → Except Err β) :
    (Except.ok a : Except Err α).bind f = f a := rfl

theorem take_min_eq {α : Type} (l : List α) (B : Nat) :
    l.take (min B l.length) = l.take B := by
  rcases Nat.le_total l.length B with h | h
  · rw [min_eq_right h, List.take_length l, List.take_of_length_le h]
  · rw [min_eq_left h]

/-- Length, bounds and `min` description of the slice the code reads at
slice index `j` of a run of `runLen` bytes cut into `buffer_size`-byte
slices: every slice except the last has length `buffer_size`; the last
has the remainder length. -/
theorem slice_facts (B runLen q j : Nat) (hB1 : 1 ≤ B) (hrl : 1 ≤ runLen)
    (hq : q = (runLen + (B - 1)) / B) (hj : j < q) (rl : Nat)
    (hrl_eq : rl = if j = q - 1 then runLen - (q - 1) * B else B) :
    1 ≤ rl ∧ j * B + rl ≤ runLen ∧ min B (runLen - j * B) = rl := by
  subst hq
  have h1 : runLen ≤ (runLen + (B - 1)) / B * B := ceil_le_mul B runLen hB1
  have h2 : ((runLen + (B - 1)) / B - 1) * B < runLen := ceil_pred_mul_lt B runLen hB1 hrl
  have hq1 : 1 ≤ (runLen + (B - 1)) / B := ceil_pos B runLen hB1 hrl
  have h4 : (runLen + (B - 1)) / B * B = ((runLen + (B - 1)) / B - 1) * B + B := by
    have h : (runLen + (B - 1)) / B - 1 + 1 = (runLen + (B - 1)) / B := by omega
    calc (runLen + (B - 1)) / B * B = ((runLen + (B - 1)) / B - 1 + 1) * B := by rw [h]
      _ = ((runLen + (B - 1)) / B - 1) * B + B := by rw [Nat.succ_mul]
  by_cases hlast : j = (runLen + (B - 1)) / B - 1
  · rw [hrl_eq, if_pos hlast, hlast]
    omega
  · rw [hrl_eq, if_neg hlast]
    have hj1 : j + 1 < (runLen + (B - 1)) / B := by omega
    have h5 : (j + 1) * B < runLen := mul_lt_of_lt_ceil B runLen (j + 1) hB1 hrl hj1
    have h6 : (j + 1) * B = j * B + B := Nat.succ_mul _ _
    omega

namespace SInv

variable {runs : List (List Nat)} {s : FileSortHelper}

/-- Reading `n` bytes at offset `off` inside run `i` from the scratch
file (absolute offset `i * cache_size + off`) is in bounds and returns
the corresponding segment of the run. -/
theorem file_seg (inv : SInv runs s) (i : Nat) (hi : i < s.caches_num)
    (off n : Nat) (hoff : off + n ≤ (runAt runs i).length) :
    i * s.cache_size + off + n ≤ s.in_file.length ∧
    (s.in_file.drop (i * s.cache_size + off)).take n = ((runAt runs i).drop off).take n := by
  have hi' : i < runs.length := by rw [inv.hruns_len]; exact hi
  have hdropC : s.in_file.drop (i * s.cache_size) = (runs.drop i).flatten := by
    rw [inv.hfile]
    exact flatten_drop_of_full s.cache_size runs
      (fun j hj => inv.hfull j (by rw [← inv.hruns_len]; exact hj)) i hi'
  have hcons : runs.drop i = runAt runs i :: runs.drop (i + 1) := by
    rw [List.drop_eq_getElem_cons hi']
    congr 1
    unfold runAt
    rw [List.getD_eq_getElem runs [] hi']
  have hflat : s.in_file.drop (i * s.cache_size) =
      runAt runs i ++ (runs.drop (i + 1)).flatten := by
    rw [hdropC, hcons, List.flatten_cons]
  have hlen : s.in_file.length - i * s.cache_size =
      (runAt runs i).length + ((runs.drop (i + 1)).flatten).length := by
    rw [← List.length_append, ← hflat, List.length_drop]
  have hp := inv.runLen_pos i hi
  constructor
  · omega
  · have hsplit : s.in_file.drop (i * s.cache_size + off) =
        (s.in_file.drop (i * s.cache_size)).drop off := by
      rw [List.drop_drop, Nat.add_comm]
    rw [hsplit, hflat, List.drop_append_of_le_length (by omega),
      List.take_append_of_le_length (by simp [List.length_drop]; omega)]

/-- The static invariant only mentions list lengths and fields a merge
step never writes, so any update of the buffer/cursor/output state by
length-preserving lists keeps it. -/
theorem update (inv : SInv runs s) (bufs' : List (List Nat)) (pos' idx' : List Nat)
    (ofile' obuf' : List Nat)
    (hb : bufs'.length = s.caches_num) (hp : pos'.length = s.caches_num)
    (hx : idx'.length = s.caches_num) :
    SInv runs { s with
                in_buffers := bufs',
                in_buffers_pos := pos',
                in_buffers_index := idx',
                out_file := ofile',
                out_buffer := obuf' } :=
  ⟨inv.hK, inv.hruns_len, hb, hp, hx, inv.hfile, inv.hC, inv.hB, inv.hB1,
   inv.hfull, inv.hlast1, inv.hlastC, inv.hspc, inv.hsplc, inv.hlss, inv.hlsil,
   inv.hsorted_runs⟩

end SInv

/-! ## Behaviour of `load_next_buffer` under the invariant -/

/-- When run `i` has no slice left, `load_next_buffer` does nothing. -/
theorem load_spec_none {runs : List (List Nat)} {t : FileSortHelper}
    (hs : SInv runs t) (i : Nat) (hi : i < t.caches_num)
    (hidx : t.idxAt i = t.slicesAt i) :
    t.load_next_buffer i = .ok t := by
  unfold FileSortHelper.idxAt FileSortHelper.slicesAt at hidx
  by_cases hb : i = t.caches_num - 1
  · rw [if_pos hb] at hidx
    simp only [FileSortHelper.load_next_buffer, if_neg (not_not_intro hb)]
    rw [if_neg (not_not_intro hidx)]
  · rw [if_neg hb] at hidx
    simp only [FileSortHelper.load_next_buffer, if_pos hb]
    rw [if_neg (not_not_intro hidx)]

/-- When run `i` still has a slice (its `in_buffers_index` is below its
slice count), `load_next_buffer` reads exactly the next slice of run `i`
and resets the cursor. -/
theorem load_spec_refill {runs : List (List Nat)} {t : FileSortHelper}
    (hs : SInv runs t) (i : Nat) (hi : i < t.caches_num)
    (hidx : t.idxAt i < t.slicesAt i) :
    t.load_next_buffer i = .ok { t with
      in_buffers := t.in_buffers.set i
        (((runAt runs i).drop (t.idxAt i * t.buffer_size)).take t.buffer_size),
      in_buffers_pos := t.in_buffers_pos.set i 0,
      in_buffers_index := t.in_buffers_index.set i (t.idxAt i + 1) } := by
  have hq := hs.slices_eq i hi
  have hrlpos := hs.runLen_pos i hi
  -- the read length the code computes, in remainder form
  have key : ∀ rl : Nat,
      rl = (if t.idxAt i = t.slicesAt i - 1
            then (runAt runs i).length - (t.slicesAt i - 1) * t.buffer_size
            else t.buffer_size) →
      readExact t.in_file (i * t.cache_size + t.idxAt i * t.buffer_size) rl =
        .ok (((runAt runs i).drop (t.idxAt i * t.buffer_size)).take t.buffer_size) := by
    intro rl hrl
    obtain ⟨hrl1, hrl2, hrl3⟩ :=
      slice_facts t.buffer_size (runAt runs i).length (t.slicesAt i) (t.idxAt i)
        hs.hB1 hrlpos hq hidx rl hrl
    obtain ⟨hbound, hval⟩ := hs.file_seg i hi (t.idxAt i * t.buffer_size) rl hrl2
    unfold readExact
    rw [if_pos hbound, hval]
    congr 1
    have hlen : ((runAt runs i).drop (t.idxAt i * t.buffer_size)).length =
        (runAt runs i).length - t.idxAt i * t.buffer_size := List.length_drop _ _
    calc ((runAt runs i).drop (t.idxAt i * t.buffer_size)).take rl
        = ((runAt runs i).drop (t.idxAt i * t.buffer_size)).take
            (min t.buffer_size ((runAt runs i).drop (t.idxAt i * t.buffer_size)).length) := by
          rw [hlen, hrl3]
      _ = ((runAt runs i).drop (t.idxAt i * t.buffer_size)).take t.buffer_size :=
          take_min_eq _ _
  unfold FileSortHelper.idxAt FileSortHelper.slicesAt at hidx key
  by_cases hb : i = t.caches_num - 1
  · rw [if_pos hb] at hidx key
    simp only [FileSortHelper.load_next_buffer, if_neg (not_not_intro hb)]
    rw [if_pos (by omega : t.in_buffers_index.getD i 0 ≠ t.slices_per_last_cache)]
    by_cases hsl : t.in_buffers_index.getD i 0 = t.slices_per_last_cache - 1
    · simp only [if_neg (not_not_intro hsl)]
      rw [key t.last_slice_in_last_cache_size (by rw [if_pos hsl, hb]; exact hs.hlsil)]
      rfl
    · simp only [if_pos hsl]
      rw [key t.buffer_size (by rw [if_neg hsl])]
      rfl
  · rw [if_neg hb] at hidx key
    simp only [FileSortHelper.load_next_buffer, if_pos hb]
    rw [if_pos (by omega : t.in_buffers_index.getD i 0 ≠ t.slices_per_cache)]
    by_cases hsl : t.in_buffers_index.getD i 0 = t.slices_per_cache - 1
    · simp only [if_neg (not_not_intro hsl)]
      have hfull : (runAt runs i).length = t.cache_size :=
        hs.hfull i (by have := hs.hK; omega)
      rw [key t.last_slice_size (by rw [if_pos hsl, hfull]; exact hs.hlss)]
      rfl
    · simp only [if_pos hsl]
      rw [key t.buffer_size (by rw [if_neg hsl])]
      rfl

/-- When the scan reports `changed = true` it has found the index of a
buffer whose cursor byte is defined and minimal among all defined cursor
bytes. -/
theorem scan_spec {runs : List (List Nat)} {s : FileSortHelper} (inv : MInv runs s)
    (htrue : (scanMinAux (heads s.in_buffers s.in_buffers_pos) 0 (0, 255, false)).2.2 = true) :
    ∃ mi m, scanMinAux (heads s.in_buffers s.in_buffers_pos) 0 (0, 255, false) = (mi, m, true) ∧
      mi < s.caches_num ∧ (s.bufAt mi)[s.posAt mi]? = some m ∧
      ∀ j, j < s.caches_num → ∀ v, (s.bufAt j)[s.posAt j]? = some v → m ≤ v := by
  have hlen : (heads s.in_buffers s.in_buffers_pos).length = s.caches_num := by
    rw [heads_length, inv.st.hbufs_len, inv.st.hpos_len, min_self]
  rcases scanMinAux_found (heads s.in_buffers s.in_buffers_pos) 0 (0, 255, false) htrue with
    ⟨_, _, hcontra⟩ | ⟨j, hj1, hj2⟩
  · simp at hcontra
  · have hjlt : j < s.caches_num := by
      by_contra hge
      rw [List.getElem?_eq_none (by omega)] at hj1
      exact Option.noConfusion hj1
    refine ⟨(scanMinAux (heads s.in_buffers s.in_buffers_pos) 0 (0, 255, false)).1,
      (scanMinAux (heads s.in_buffers s.in_buffers_pos) 0 (0, 255, false)).2.1,
      Prod.ext rfl (Prod.ext rfl htrue), ?_, ?_, ?_⟩
    · omega
    · rw [hj2, Nat.zero_add]
      have hh := heads_getElem s.in_buffers s.in_buffers_pos j
        (by rw [inv.st.hbufs_len]; exact hjlt) (by rw [inv.st.hpos_len]; exact hjlt)
      rw [hh] at hj1
      exact Option.some.inj hj1
    · intro j' hj' v hv
      have hh := heads_getElem s.in_buffers s.in_buffers_pos j'
        (by rw [inv.st.hbufs_len]; exact hj') (by rw [inv.st.hpos_len]; exact hj')
      exact scanMinAux_le_head _ 0 _ j' v (by rw [hh]; exact congrArg some hv)

/-! ## One merge iteration preserves the invariant

`advance` and `flushIfFull` are proof-side normal forms for the three
assignments a loop iteration performs (push the minimum, bump the winner's
cursor, flush a full output buffer); `mergeStep` is shown to equal their
composition below. -/

/-- Push byte `m` and advance the cursor of run `mi` (lines 91-92). -/
def advance (s : FileSortHelper) (mi m : Nat) : FileSortHelper :=
  { s with
    out_buffer := s.out_buffer ++ [m],
    in_buffers_pos := s.in_buffers_pos.set mi (s.in_buffers_pos.getD mi 0 + 1) }

/-- The invariant just before the flush check: identical to `MInv` except
that the output buffer may have just reached `buffer_size`. -/
structure MInvQ (runs : List (List Nat)) (s : FileSortHelper) : Prop where
  st : SInv runs s
  hidx1 : ∀ i, i < s.caches_num → 1 ≤ s.idxAt i
  hidxle : ∀ i, i < s.caches_num → s.idxAt i ≤ s.slicesAt i
  hbuf : ∀ i, i < s.caches_num →
    s.bufAt i = ((runAt runs i).drop ((s.idxAt i - 1) * s.buffer_size)).take s.buffer_size
  hposle : ∀ i, i < s.caches_num → s.posAt i ≤ (s.bufAt i).length
  hexh : ∀ i, i < s.caches_num → s.posAt i = (s.bufAt i).length → s.idxAt i = s.slicesAt i
  hout_sorted : List.Sorted (· ≤ ·) (s.out_file ++ s.out_buffer)
  hout_le : ∀ x ∈ s.out_file ++ s.out_buffer, ∀ i, i < s.caches_num →
    ∀ y ∈ availAt runs s i, x ≤ y
  hout_leB : s.out_buffer.length ≤ s.buffer_size

/-- Flushing a full output buffer restores the strict bound. -/
theorem MInvQ.flush_full {runs : List (List Nat)} {u : FileSortHelper}
    (q : MInvQ runs u) (hf : u.out_buffer.length = u.buffer_size) :
    MInv runs { u with out_file := u.out_file ++ u.out_buffer, out_buffer := [] } := by
  refine ⟨SInv.update q.st u.in_buffers u.in_buffers_pos u.in_buffers_index
      (u.out_file ++ u.out_buffer) [] q.st.hbufs_len q.st.hpos_len q.st.hidx_len,
    q.hidx1, q.hidxle, q.hbuf, q.hposle, q.hexh, ?_, ?_, ?_⟩
  · simpa using q.hout_sorted
  · intro x hx i hi y hy
    exact q.hout_le x (by simpa using hx) i hi y hy
  · simpa using q.st.hB1

/-- A not-full output buffer already satisfies the strict bound. -/
theorem MInvQ.flush_keep {runs : List (List Nat)} {u : FileSortHelper}
    (q : MInvQ runs u) (hf : ¬ u.out_buffer.length = u.buffer_size) :
    MInv runs u :=
  ⟨q.st, q.hidx1, q.hidxle, q.hbuf, q.hposle, q.hexh, q.hout_sorted,
    q.hout_le, by have := q.hout_leB; omega⟩

/-- The byte chosen by the scan is a lower bound for every unconsumed
byte of every run. -/
theorem m_le_avail {runs : List (List Nat)} {s : FileSortHelper} (inv : MInv runs s)
    {m : Nat}
    (hmin : ∀ j, j < s.caches_num → ∀ v, (s.bufAt j)[s.posAt j]? = some v → m ≤ v) :
    ∀ j, j < s.caches_num → ∀ y ∈ availAt runs s j, m ≤ y := by
  intro j hj y hy
  have hsorted : List.Sorted (· ≤ ·) (availAt runs s j) :=
    (inv.st.run_sorted j hj).sublist (List.drop_sublist _ _)
  cases hav : availAt runs s j with
  | nil => rw [hav] at hy; simp at hy
  | cons v t =>
    have hv : (s.bufAt j)[s.posAt j]? = some v := by
      rw [inv.head_eq j hj, hav]; rfl
    have hmv : m ≤ v := hmin j hj v hv
    rw [hav] at hy hsorted
    rcases List.mem_cons.mp hy with rfl | hyt
    · exact hmv
    · exact le_trans hmv (List.rel_of_sorted_cons hsorted y hyt)

/-- Every already-emitted byte is at most the byte chosen by the scan. -/
theorem out_le_m {runs : List (List Nat)} {s : FileSortHelper} (inv : MInv runs s)
    {mi m : Nat} (hmi : mi < s.caches_num)
    (hhead : (s.bufAt mi)[s.posAt mi]? = some m) :
    ∀ x ∈ s.out_file ++ s.out_buffer, x ≤ m := by
  intro x hx
  have hmem : m ∈ availAt runs s mi := by
    apply List.mem_of_mem_head?
    rw [← inv.head_eq mi hmi]
    exact hhead
  exact inv.hout_le x hx mi hmi m hmem

/-- Advancing the winner's cursor preserves the (pre-flush) invariant,
provided that an exhausted buffer can only happen for an exhausted run
(which `mergeStep` guarantees by refilling, handled separately). -/
theorem advance_invQ {runs : List (List Nat)} {s : FileSortHelper} (inv : MInv runs s)
    {mi m : Nat} (hmi : mi < s.caches_num)
    (hhead : (s.bufAt mi)[s.posAt mi]? = some m)
    (hmin : ∀ j, j < s.caches_num → ∀ v, (s.bufAt j)[s.posAt j]? = some v → m ≤ v)
    (hcase : s.posAt mi + 1 = (s.bufAt mi).length → s.idxAt mi = s.slicesAt mi) :
    MInvQ runs (advance s mi m) := by
  have hposlt : s.posAt mi < (s.bufAt mi).length := by
    by_contra hge
    rw [List.getElem?_eq_none (by omega)] at hhead
    exact Option.noConfusion hhead
  have hmil : mi < s.in_buffers_pos.length := by rw [inv.st.hpos_len]; exact hmi
  have hposAt : ∀ j, j < s.caches_num →
      (advance s mi m).posAt j = if j = mi then s.posAt mi + 1 else s.posAt j := by
    intro j hj
    unfold advance FileSortHelper.posAt
    by_cases hjm : j = mi
    · subst hjm
      rw [if_pos rfl]
      exact getD_set_self _ _ _ _ hmil
    · rw [if_neg hjm]
      exact getD_set_ne _ _ _ _ _ hjm
  have havail : ∀ j, j < s.caches_num →
      availAt runs (advance s mi m) j =
        if j = mi then (availAt runs s mi).tail else availAt runs s j := by
    intro j hj
    unfold availAt FileSortHelper.consumedAt
    by_cases hjm : j = mi
    · subst hjm
      rw [if_pos rfl, hposAt _ hj, if_pos rfl]
      show (runAt runs j).drop ((s.idxAt j - 1) * s.buffer_size + (s.posAt j + 1)) =
        ((runAt runs j).drop ((s.idxAt j - 1) * s.buffer_size + s.posAt j)).tail
      rw [List.tail_drop]
      congr 1
    · rw [if_neg hjm, hposAt _ hj, if_neg hjm]
      rfl
  have hmem_avail : m ∈ availAt runs s mi := by
    apply List.mem_of_mem_head?
    rw [← inv.head_eq mi hmi]
    exact hhead
  have hxm := out_le_m inv hmi hhead
  have hym := m_le_avail inv hmin
  refine ⟨SInv.update inv.st s.in_buffers _ s.in_buffers_index s.out_file
      (s.out_buffer ++ [m]) inv.st.hbufs_len (by rw [List.length_set]; exact inv.st.hpos_len)
      inv.st.hidx_len,
    inv.hidx1, inv.hidxle, inv.hbuf, ?_, ?_, ?_, ?_, ?_⟩
  · -- hposle
    intro j hj
    rw [hposAt j hj]
    by_cases hjm : j = mi
    · rw [if_pos hjm, hjm]
      have := inv.hposle mi hmi
      show s.posAt mi + 1 ≤ (s.bufAt mi).length
      omega
    · rw [if_neg hjm]
      exact inv.hposle j hj
  · -- hexh
    intro j hj
    rw [hposAt j hj]
    by_cases hjm : j = mi
    · rw [if_pos hjm, hjm]
      intro hlen
      exact hcase hlen
    · rw [if_neg hjm]
      intro hlen
      exact inv.hexh j hj hlen
  · -- hout_sorted : out_file ++ (out_buffer ++ [m])
    show List.Sorted (· ≤ ·) (s.out_file ++ (s.out_buffer ++ [m]))
    rw [← List.append_assoc]
    exact List.pairwise_append.mpr
      ⟨inv.hout_sorted, List.pairwise_singleton _ _,
       fun x hx y hy => by rw [List.mem_singleton] at hy; subst hy; exact hxm x hx⟩
  · -- hout_le
    intro x hx i hi y hy
    rw [havail i hi] at hy
    have hy' : y ∈ availAt runs s i := by
      by_cases him : i = mi
      · rw [if_pos him] at hy
        subst him
        exact List.mem_of_mem_tail hy
      · rw [if_neg him] at hy
        exact hy
    show x ≤ y
    have hx' : x ∈ s.out_file ++ (s.out_buffer ++ [m]) := hx
    rw [← List.append_assoc] at hx'
    rcases List.mem_append.mp hx' with hxo | hxm'
    · exact inv.hout_le x hxo i hi y hy'
    · rw [List.mem_singleton] at hxm'
      subst hxm'
      exact hym i hi y hy'
  · -- hout_leB
    show (s.out_buffer ++ [m]).length ≤ s.buffer_size
    rw [List.length_append]
    have := inv.hout_lt
    simp
    omega

/-- When the winner's buffer is exhausted and its run still has slices,
advancing and refilling preserves the (pre-flush) invariant. -/
theorem refill_invQ {runs : List (List Nat)} {s : FileSortHelper} (inv : MInv runs s)
    {mi m : Nat} (hmi : mi < s.caches_num)
    (hhead : (s.bufAt mi)[s.posAt mi]? = some m)
    (hmin : ∀ j, j < s.caches_num → ∀ v, (s.bufAt j)[s.posAt j]? = some v → m ≤ v)
    (heq : s.posAt mi + 1 = (s.bufAt mi).length)
    (hidxlt : s.idxAt mi < s.slicesAt mi) :
    MInvQ runs { s with
      out_buffer := s.out_buffer ++ [m],
      in_buffers := s.in_buffers.set mi
        (((runAt runs mi).drop (s.idxAt mi * s.buffer_size)).take s.buffer_size),
      in_buffers_pos :=
        (s.in_buffers_pos.set mi (s.in_buffers_pos.getD mi 0 + 1)).set mi 0,
      in_buffers_index := s.in_buffers_index.set mi (s.idxAt mi + 1) } := by
  set R : FileSortHelper := { s with
      out_buffer := s.out_buffer ++ [m],
      in_buffers := s.in_buffers.set mi
        (((runAt runs mi).drop (s.idxAt mi * s.buffer_size)).take s.buffer_size),
      in_buffers_pos :=
        (s.in_buffers_pos.set mi (s.in_buffers_pos.getD mi 0 + 1)).set mi 0,
      in_buffers_index := s.in_buffers_index.set mi (s.idxAt mi + 1) } with hR
  have hposlt : s.posAt mi < (s.bufAt mi).length := by
    by_contra hge
    rw [List.getElem?_eq_none (by omega)] at hhead
    exact Option.noConfusion hhead
  have hmilp : mi < s.in_buffers_pos.length := by rw [inv.st.hpos_len]; exact hmi
  have hmilp2 : mi < (s.in_buffers_pos.set mi (s.in_buffers_pos.getD mi 0 + 1)).length := by
    rw [List.length_set]; exact hmilp
  have hmilb : mi < s.in_buffers.length := by rw [inv.st.hbufs_len]; exact hmi
  have hmili : mi < s.in_buffers_index.length := by rw [inv.st.hidx_len]; exact hmi
  have hidx1mi := inv.hidx1 mi hmi
  have hlenmi := inv.buf_len mi hmi
  have hltmi : s.idxAt mi * s.buffer_size < (runAt runs mi).length := by
    apply mul_lt_of_lt_ceil s.buffer_size _ _ inv.st.hB1 (inv.st.runLen_pos mi hmi)
    have := inv.st.slices_eq mi hmi
    omega
  have hmuls : s.idxAt mi * s.buffer_size =
      (s.idxAt mi - 1) * s.buffer_size + s.buffer_size := by
    have h1 : s.idxAt mi - 1 + 1 = s.idxAt mi := by omega
    calc s.idxAt mi * s.buffer_size
        = (s.idxAt mi - 1 + 1) * s.buffer_size := by rw [h1]
      _ = (s.idxAt mi - 1) * s.buffer_size + s.buffer_size := by rw [Nat.succ_mul]
  have hBfull : (s.bufAt mi).length = s.buffer_size := by omega
  -- projections of the refilled state
  have hposAt : ∀ j, j < s.caches_num →
      R.posAt j = if j = mi then 0 else s.posAt j := by
    intro j hj
    show ((s.in_buffers_pos.set mi (s.in_buffers_pos.getD mi 0 + 1)).set mi 0).getD j 0 = _
    by_cases hjm : j = mi
    · subst hjm
      rw [if_pos rfl]
      exact getD_set_self _ _ _ _ hmilp2
    · rw [if_neg hjm, getD_set_ne _ _ _ _ _ hjm, getD_set_ne _ _ _ _ _ hjm]
      rfl
  have hidxAt : ∀ j, j < s.caches_num →
      R.idxAt j = if j = mi then s.idxAt mi + 1 else s.idxAt j := by
    intro j hj
    show (s.in_buffers_index.set mi (s.idxAt mi + 1)).getD j 0 = _
    by_cases hjm : j = mi
    · subst hjm
      rw [if_pos rfl]
      exact getD_set_self _ _ _ _ hmili
    · rw [if_neg hjm, getD_set_ne _ _ _ _ _ hjm]
      rfl
  have hbufAt : ∀ j, j < s.caches_num →
      R.bufAt j = if j = mi
        then ((runAt runs mi).drop (s.idxAt mi * s.buffer_size)).take s.buffer_size
        else s.bufAt j := by
    intro j hj
    show (s.in_buffers.set mi _).getD j [] = _
    by_cases hjm : j = mi
    · subst hjm
      rw [if_pos rfl]
      exact getD_set_self _ _ _ _ hmilb
    · rw [if_neg hjm, getD_set_ne _ _ _ _ _ hjm]
      rfl
  have hnewlen : (((runAt runs mi).drop (s.idxAt mi * s.buffer_size)).take s.buffer_size).length =
      min s.buffer_size ((runAt runs mi).length - s.idxAt mi * s.buffer_size) := by
    simp [List.length_take, List.length_drop]
  have havail : ∀ j, j < s.caches_num →
      availAt runs R j =
        if j = mi then (availAt runs s mi).tail else availAt runs s j := by
    intro j hj
    unfold availAt FileSortHelper.consumedAt
    by_cases hjm : j = mi
    · subst hjm
      rw [if_pos rfl, hposAt _ hj, if_pos rfl, hidxAt _ hj, if_pos rfl]
      show (runAt runs j).drop ((s.idxAt j + 1 - 1) * s.buffer_size + 0) =
        ((runAt runs j).drop ((s.idxAt j - 1) * s.buffer_size + s.posAt j)).tail
      rw [List.tail_drop, Nat.add_sub_cancel]
      congr 1
      omega
    · rw [if_neg hjm, hposAt _ hj, if_neg hjm, hidxAt _ hj, if_neg hjm]
  have hxm := out_le_m inv hmi hhead
  have hym := m_le_avail inv hmin
  refine ⟨SInv.update inv.st _ _ _ s.out_file (s.out_buffer ++ [m])
      (by rw [List.length_set]; exact inv.st.hbufs_len)
      (by rw [List.length_set, List.length_set]; exact inv.st.hpos_len)
      (by rw [List.length_set]; exact inv.st.hidx_len),
    ?_, ?_, ?_, ?_, ?_, ?_, ?_, ?_⟩
  · intro j hj
    rw [hidxAt j hj]
    by_cases hjm : j = mi
    · rw [if_pos hjm]; omega
    · rw [if_neg hjm]; exact inv.hidx1 j hj
  · intro j hj
    rw [hidxAt j hj]
    by_cases hjm : j = mi
    · rw [if_pos hjm, hjm]
      show s.idxAt mi + 1 ≤ s.slicesAt mi
      omega
    · rw [if_neg hjm]
      exact inv.hidxle j hj
  · intro j hj
    rw [hbufAt j hj, hidxAt j hj]
    by_cases hjm : j = mi
    · rw [if_pos hjm, if_pos hjm, hjm]
      show _ = ((runAt runs mi).drop ((s.idxAt mi + 1 - 1) * s.buffer_size)).take s.buffer_size
      congr 2
    · rw [if_neg hjm, if_neg hjm]
      exact inv.hbuf j hj
  · intro j hj
    rw [hposAt j hj, hbufAt j hj]
    by_cases hjm : j = mi
    · rw [if_pos hjm, if_pos hjm]
      exact Nat.zero_le _
    · rw [if_neg hjm, if_neg hjm]
      exact inv.hposle j hj
  · intro j hj
    rw [hposAt j hj, hbufAt j hj]
    by_cases hjm : j = mi
    · rw [if_pos hjm, if_pos hjm]
      intro h0
      exfalso
      rw [hnewlen] at h0
      have hB1 := inv.st.hB1
      omega
    · rw [if_neg hjm, if_neg hjm]
      intro hlen
      rw [hidxAt j hj, if_neg hjm]
      exact inv.hexh j hj hlen
  · show List.Sorted (· ≤ ·) (s.out_file ++ (s.out_buffer ++ [m]))
    rw [← List.append_assoc]
    exact List.pairwise_append.mpr
      ⟨inv.hout_sorted, List.pairwise_singleton _ _,
       fun x hx y hy => by rw [List.mem_singleton] at hy; subst hy; exact hxm x hx⟩
  · intro x hx i hi y hy
    rw [havail i hi] at hy
    have hy' : y ∈ availAt runs s i := by
      by_cases him : i = mi
      · rw [if_pos him] at hy
        subst him
        exact List.mem_of_mem_tail hy
      · rw [if_neg him] at hy
        exact hy
    show x ≤ y
    have hx' : x ∈ s.out_file ++ (s.out_buffer ++ [m]) := hx
    rw [← List.append_assoc] at hx'
    rcases List.mem_append.mp hx' with hxo | hxm'
    · exact inv.hout_le x hxo i hi y hy'
    · rw [List.mem_singleton] at hxm'
      subst hxm'
      exact hym i hi y hy'
  · show (s.out_buffer ++ [m]).length ≤ s.buffer_size
    rw [List.length_append]
    have := inv.hout_lt
    simp
    omega

/-- A successful loop iteration preserves the merge invariant. -/
theorem mergeStep_some {runs : List (List Nat)} {s s' : FileSortHelper}
    (inv : MInv runs s) (h : s.mergeStep = .ok (some s')) : MInv runs s' := by
  cases hch : (scanMinAux (heads s.in_buffers s.in_buffers_pos) 0 (0, 255, false)).2.2 with
  | false =>
    simp only [FileSortHelper.mergeStep] at h
    rw [if_pos hch] at h
    simp at h
  | true =>
    obtain ⟨mi, m, hr, hmi, hhead, hmin⟩ := scan_spec inv hch
    have hmilp : mi < s.in_buffers_pos.length := by rw [inv.st.hpos_len]; exact hmi
    have hsadv : SInv runs (advance s mi m) :=
      SInv.update inv.st s.in_buffers
        (s.in_buffers_pos.set mi (s.in_buffers_pos.getD mi 0 + 1)) s.in_buffers_index
        s.out_file (s.out_buffer ++ [m]) inv.st.hbufs_len
        (by rw [List.length_set]; exact inv.st.hpos_len) inv.st.hidx_len
    simp only [FileSortHelper.mergeStep] at h
    rw [hr] at h
    simp only [show ((mi, m, true) : Nat × Nat × Bool).2.2 = true from rfl,
      show ((mi, m, true) : Nat × Nat × Bool).2.1 = m from rfl,
      show ((mi, m, true) : Nat × Nat × Bool).1 = mi from rfl] at h
    rw [if_neg (show ¬(true = false) by simp)] at h
    have hCOND : (s.in_buffers_pos.set mi (s.in_buffers_pos.getD mi 0 + 1)).getD mi 0 =
        s.posAt mi + 1 := getD_set_self _ _ _ _ hmilp
    simp only [hCOND] at h
    by_cases hfill : s.posAt mi + 1 = (s.bufAt mi).length
    · by_cases hidxc : s.idxAt mi = s.slicesAt mi
      · -- exhausted run: load_next_buffer is a no-op
        have hload : FileSortHelper.load_next_buffer
            { s with
              out_buffer := s.out_buffer ++ [m],
              in_buffers_pos := s.in_buffers_pos.set mi (s.in_buffers_pos.getD mi 0 + 1) } mi =
            .ok { s with
              out_buffer := s.out_buffer ++ [m],
              in_buffers_pos := s.in_buffers_pos.set mi (s.in_buffers_pos.getD mi 0 + 1) } :=
          load_spec_none hsadv mi hmi hidxc
        rw [if_pos (show s.posAt mi + 1 = (s.in_buffers.getD mi []).length from hfill),
          hload, except_bind_ok] at h
        dsimp only at h
        have hq : MInvQ runs (advance s mi m) :=
          advance_invQ inv hmi hhead hmin (fun _ => hidxc)
        rcases hfl : decide ((s.out_buffer ++ [m]).length = s.buffer_size) with _ | _
        · rw [if_neg (of_decide_eq_false hfl)] at h
          have hx2 := Option.some.inj (Except.ok.inj h)
          rw [← hx2]
          exact MInvQ.flush_keep hq (of_decide_eq_false hfl)
        · rw [if_pos (of_decide_eq_true hfl)] at h
          have hx2 := Option.some.inj (Except.ok.inj h)
          rw [← hx2]
          exact MInvQ.flush_full hq (of_decide_eq_true hfl)
      · -- refill
        have hidxlt : s.idxAt mi < s.slicesAt mi :=
          lt_of_le_of_ne (inv.hidxle mi hmi) hidxc
        have hload : FileSortHelper.load_next_buffer
            { s with
              out_buffer := s.out_buffer ++ [m],
              in_buffers_pos := s.in_buffers_pos.set mi (s.in_buffers_pos.getD mi 0 + 1) } mi =
            .ok { s with
              out_buffer := s.out_buffer ++ [m],
              in_buffers := s.in_buffers.set mi
                (((runAt runs mi).drop (s.idxAt mi * s.buffer_size)).take s.buffer_size),
              in_buffers_pos :=
                (s.in_buffers_pos.set mi (s.in_buffers_pos.getD mi 0 + 1)).set mi 0,
              in_buffers_index := s.in_buffers_index.set mi (s.idxAt mi + 1) } :=
          load_spec_refill hsadv mi hmi hidxlt
        rw [if_pos (show s.posAt mi + 1 = (s.in_buffers.getD mi []).length from hfill),
          hload, except_bind_ok] at h
        dsimp only at h
        have hq : MInvQ runs
            { s with
              out_buffer := s.out_buffer ++ [m],
              in_buffers := s.in_buffers.set mi
                (((runAt runs mi).drop (s.idxAt mi * s.buffer_size)).take s.buffer_size),
              in_buffers_pos :=
                (s.in_buffers_pos.set mi (s.in_buffers_pos.getD mi 0 + 1)).set mi 0,
              in_buffers_index := s.in_buffers_index.set mi (s.idxAt mi + 1) } :=
          refill_invQ inv hmi hhead hmin hfill hidxlt
        rcases hfl : decide ((s.out_buffer ++ [m]).length = s.buffer_size) with _ | _
        · rw [if_neg (of_decide_eq_false hfl)] at h
          have hx2 := Option.some.inj (Except.ok.inj h)
          rw [← hx2]
          exact MInvQ.flush_keep hq (of_decide_eq_false hfl)
        · rw [if_pos (of_decide_eq_true hfl)] at h
          have hx2 := Option.some.inj (Except.ok.inj h)
          rw [← hx2]
          exact MInvQ.flush_full hq (of_decide_eq_true hfl)
    · -- the buffer still has bytes: no load
      rw [if_neg (show ¬(s.posAt mi + 1 = (s.in_buffers.getD mi []).length) from hfill),
        except_bind_ok] at h
      dsimp only at h
      have hq : MInvQ runs (advance s mi m) :=
        advance_invQ inv hmi hhead hmin (fun hc => absurd hc hfill)
      rcases hfl : decide ((s.out_buffer ++ [m]).length = s.buffer_size) with _ | _
      · rw [if_neg (of_decide_eq_false hfl)] at h
        have hx2 := Option.some.inj (Except.ok.inj h)
        rw [← hx2]
        exact MInvQ.flush_keep hq (of_decide_eq_false hfl)
      · rw [if_pos (of_decide_eq_true hfl)] at h
        have hx2 := Option.some.inj (Except.ok.inj h)
        rw [← hx2]
        exact MInvQ.flush_full hq (of_decide_eq_true hfl)

/-- Any state the merge loop returns (under the invariant) has a sorted
output file. -/
theorem mergeLoop_sorted {runs : List (List Nat)} :
    ∀ (fuel : Nat) (s s' : FileSortHelper), MInv runs s →
      FileSortHelper.mergeLoop fuel s = .ok s' →
      List.Sorted (· ≤ ·) s'.out_file := by
  intro fuel
  induction fuel with
  | zero =>
    intro s s' inv h
    simp [FileSortHelper.mergeLoop] at h
  | succ fuel ih =>
    intro s s' inv h
    simp only [FileSortHelper.mergeLoop] at h
    cases hstep : s.mergeStep with
    | error e =>
      rw [hstep] at h
      simp at h
    | ok o =>
      rw [hstep] at h
      cases o with
      | none =>
        simp only at h
        have hx : ({ s with out_file := s.out_file ++ s.out_buffer } : FileSortHelper) = s' := by
          exact Except.ok.inj h
        rw [← hx]
        exact inv.hout_sorted
      | some s2 =>
        simp only at h
        exact ih s2 s' (mergeStep_some inv hstep) h

/-- `FileSortHelper.merge` returns a sorted output file. -/
theorem merge_sorted {runs : List (List Nat)} {s s' : FileSortHelper}
    (inv : MInv runs s) (h : s.merge = .ok s') :
    List.Sorted (· ≤ ·) s'.out_file :=
  mergeLoop_sorted _ s s' inv h

/-! ## Correctness of `init_buffers` and `new` -/

/-- State shape after `init_buffers` has loaded the first slice of run
`i`: the processed prefix grows by one, the untouched suffix shrinks by
one. -/
theorem initStep_state {runs : List (List Nat)} {t : FileSortHelper}
    (hst : SInv runs t) (i : Nat) (hiK : i < t.caches_num)
    (hpre : ∀ j, j < i → t.idxAt j = 1 ∧ t.posAt j = 0 ∧
      t.bufAt j = (runAt runs j).take t.buffer_size)
    (hsuf : ∀ j, i ≤ j → j < t.caches_num →
      t.idxAt j = 0 ∧ t.posAt j = t.buffer_size ∧ t.bufAt j = []) :
    SInv runs { t with
      in_buffers := t.in_buffers.set i ((runAt runs i).take t.buffer_size),
      in_buffers_pos := t.in_buffers_pos.set i 0,
      in_buffers_index := t.in_buffers_index.set i (0 + 1) } ∧
    (∀ j, j < i + 1 →
      (t.in_buffers_index.set i (0 + 1)).getD j 0 = 1 ∧
      (t.in_buffers_pos.set i 0).getD j 0 = 0 ∧
      (t.in_buffers.set i ((runAt runs i).take t.buffer_size)).getD j [] =
        (runAt runs j).take t.buffer_size) ∧
    (∀ j, i + 1 ≤ j → j < t.caches_num →
      (t.in_buffers_index.set i (0 + 1)).getD j 0 = 0 ∧
      (t.in_buffers_pos.set i 0).getD j 0 = t.buffer_size ∧
      (t.in_buffers.set i ((runAt runs i).take t.buffer_size)).getD j [] = []) := by
  refine ⟨SInv.update hst _ _ _ t.out_file t.out_buffer
      (by rw [List.length_set]; exact hst.hbufs_len)
      (by rw [List.length_set]; exact hst.hpos_len)
      (by rw [List.length_set]; exact hst.hidx_len), ?_, ?_⟩
  · intro j hj
    by_cases hjm : j = i
    · subst hjm
      exact ⟨getD_set_self _ _ _ _ (by rw [hst.hidx_len]; exact hiK),
        getD_set_self _ _ _ _ (by rw [hst.hpos_len]; exact hiK),
        getD_set_self _ _ _ _ (by rw [hst.hbufs_len]; exact hiK)⟩
    · have hji : j < i := by omega
      obtain ⟨h1, h2, h3⟩ := hpre j hji
      exact ⟨by rw [getD_set_ne _ _ _ _ _ hjm]; exact h1,
        by rw [getD_set_ne _ _ _ _ _ hjm]; exact h2,
        by rw [getD_set_ne _ _ _ _ _ hjm]; exact h3⟩
  · intro j hj hjK
    have hjm : j ≠ i := by omega
    obtain ⟨h1, h2, h3⟩ := hsuf j (by omega) hjK
    exact ⟨by rw [getD_set_ne _ _ _ _ _ hjm]; exact h1,
      by rw [getD_set_ne _ _ _ _ _ hjm]; exact h2,
      by rw [getD_set_ne _ _ _ _ _ hjm]; exact h3⟩

/-- Invariant of the `init_buffers` loop: buffers before `i` hold the
first slice of their run with cursor `0` and slice count `1`; buffers
from `i` on are still in their freshly-allocated state; the file cursor
sits at the start of run `i`.  Running the remaining iterations loads
every first slice. -/
theorem initLoop_inv {runs : List (List Nat)} :
    ∀ (rem i : Nat) (t s' : FileSortHelper),
      SInv runs t →
      i + rem = t.caches_num →
      (∀ j, j < i → t.idxAt j = 1 ∧ t.posAt j = 0 ∧
        t.bufAt j = (runAt runs j).take t.buffer_size) →
      (∀ j, i ≤ j → j < t.caches_num →
        t.idxAt j = 0 ∧ t.posAt j = t.buffer_size ∧ t.bufAt j = []) →
      FileSortHelper.initLoop rem i (i * t.cache_size) t = .ok s' →
      SInv runs s' ∧ s'.out_file = t.out_file ∧ s'.out_buffer = t.out_buffer ∧
      s'.caches_num = t.caches_num ∧ s'.buffer_size = t.buffer_size ∧
      (∀ j, j < s'.caches_num → s'.idxAt j = 1 ∧ s'.posAt j = 0 ∧
        s'.bufAt j = (runAt runs j).take s'.buffer_size) := by
  intro rem
  induction rem with
  | zero =>
    intro i t s' hst hcount hpre _ h
    simp only [FileSortHelper.initLoop] at h
    have hx : t = s' := Except.ok.inj h
    subst hx
    exact ⟨hst, rfl, rfl, rfl, rfl, fun j hj => hpre j (by omega)⟩
  | succ rem ih =>
    intro i t s' hst hcount hpre hsuf h
    have hiK : i < t.caches_num := by omega
    have hidx0 : t.idxAt i = 0 := (hsuf i le_rfl hiK).1
    have hq := hst.slices_eq i hiK
    have hrlpos := hst.runLen_pos i hiK
    have hsl1 : 1 ≤ t.slicesAt i := hst.slices_pos i hiK
    have key : ∀ rl : Nat,
        rl = (if 0 = t.slicesAt i - 1
              then (runAt runs i).length - (t.slicesAt i - 1) * t.buffer_size
              else t.buffer_size) →
        1 ≤ rl ∧ rl ≤ t.cache_size ∧
        readExact t.in_file (i * t.cache_size) rl =
          .ok ((runAt runs i).take t.buffer_size) := by
      intro rl hrl
      obtain ⟨hrl1, hrl2, hrl3⟩ :=
        slice_facts t.buffer_size (runAt runs i).length (t.slicesAt i) 0
          hst.hB1 hrlpos hq (by omega) rl hrl
      rw [Nat.zero_mul, Nat.zero_add] at hrl2
      obtain ⟨hbound, hval⟩ := hst.file_seg i hiK 0 rl (by omega)
      rw [Nat.add_zero] at hbound hval
      refine ⟨hrl1, le_trans hrl2 (hst.runLen_le i hiK), ?_⟩
      unfold readExact
      rw [if_pos hbound, hval, List.drop_zero]
      congr 1
      have hlen0 : min t.buffer_size (runAt runs i).length = rl := by
        have hx := hrl3
        rw [Nat.zero_mul, Nat.sub_zero] at hx
        exact hx
      calc (runAt runs i).take rl
          = (runAt runs i).take (min t.buffer_size (runAt runs i).length) := by rw [hlen0]
        _ = (runAt runs i).take t.buffer_size := take_min_eq _ _
    obtain ⟨hT1, hT2, hT3⟩ := initStep_state hst i hiK hpre hsuf
    simp only [FileSortHelper.initLoop] at h
    rw [show t.in_buffers_index.getD i 0 = 0 from hidx0] at h
    by_cases hb : i = t.caches_num - 1
    · -- final buffer: `rem = 0`, the recursive call returns immediately
      have hrem0 : rem = 0 := by omega
      subst hrem0
      simp only [if_neg (not_not_intro hb)] at h
      have hslices : t.slicesAt i = t.slices_per_last_cache := by
        unfold FileSortHelper.slicesAt
        rw [if_pos hb]
      by_cases hsl : 0 = t.slices_per_last_cache - 1
      · simp only [if_neg (not_not_intro hsl)] at h
        obtain ⟨_, _, hread⟩ := key t.last_slice_in_last_cache_size
          (by rw [if_pos (by rw [hslices]; exact hsl), hslices, hst.hlsil, hb])
        rw [hread] at h
        simp only at h
        simp only [FileSortHelper.initLoop] at h
        have hx := Except.ok.inj h
        subst hx
        refine ⟨hT1, rfl, rfl, rfl, rfl, ?_⟩
        intro j hj
        have hj' : j < t.caches_num := hj
        exact hT2 j (by omega)
      · simp only [if_pos hsl] at h
        obtain ⟨_, _, hread⟩ := key t.buffer_size
          (by rw [if_neg (by rw [hslices]; exact hsl)])
        rw [hread] at h
        simp only at h
        simp only [FileSortHelper.initLoop] at h
        have hx := Except.ok.inj h
        subst hx
        refine ⟨hT1, rfl, rfl, rfl, rfl, ?_⟩
        intro j hj
        have hj' : j < t.caches_num := hj
        exact hT2 j (by omega)
    · -- non-final buffer: seek lands at the start of run `i + 1`
      simp only [if_pos hb] at h
      have hslices : t.slicesAt i = t.slices_per_cache := by
        unfold FileSortHelper.slicesAt
        rw [if_neg hb]
      have happly : ∀ (rl : Nat), 1 ≤ rl → rl ≤ t.cache_size →
          FileSortHelper.initLoop rem (i + 1)
            (i * t.cache_size + rl + (t.cache_size - rl + 0 * t.buffer_size))
            { t with
              in_buffers := t.in_buffers.set i ((runAt runs i).take t.buffer_size),
              in_buffers_pos := t.in_buffers_pos.set i 0,
              in_buffers_index := t.in_buffers_index.set i (0 + 1) } = .ok s' →
          SInv runs s' ∧ s'.out_file = t.out_file ∧ s'.out_buffer = t.out_buffer ∧
            s'.caches_num = t.caches_num ∧ s'.buffer_size = t.buffer_size ∧
            (∀ j, j < s'.caches_num → s'.idxAt j = 1 ∧ s'.posAt j = 0 ∧
              s'.bufAt j = (runAt runs j).take s'.buffer_size) := by
        intro rl hrl1 hrlC hrec
        rw [show i * t.cache_size + rl + (t.cache_size - rl + 0 * t.buffer_size) =
            (i + 1) * t.cache_size from by
          rw [Nat.zero_mul, Nat.add_zero, Nat.succ_mul]
          omega] at hrec
        exact ih (i + 1) { t with
            in_buffers := t.in_buffers.set i ((runAt runs i).take t.buffer_size),
            in_buffers_pos := t.in_buffers_pos.set i 0,
            in_buffers_index := t.in_buffers_index.set i (0 + 1) } s' hT1
          (show i + 1 + rem = t.caches_num from by omega) hT2 hT3 hrec
      by_cases hsl : 0 = t.slices_per_cache - 1
      · simp only [if_neg (not_not_intro hsl)] at h
        obtain ⟨hrl1, hrlC, hread⟩ := key t.last_slice_size
          (by rw [if_pos (by rw [hslices]; exact hsl), hslices, hst.hlss,
            hst.hfull i (by omega)])
        rw [hread] at h
        simp only at h
        exact happly t.last_slice_size hrl1 hrlC h
      · simp only [if_pos hsl] at h
        obtain ⟨hrl1, hrlC, hread⟩ := key t.buffer_size
          (by rw [if_neg (by rw [hslices]; exact hsl)])
        rw [hread] at h
        simp only at h
        exact happly t.buffer_size hrl1 hrlC h

theorem getD_replicate {α : Type} (n j : Nat) (a d : α) (hj : j < n) :
    (List.replicate n a).getD j d = a := by
  simp [List.getD, List.getElem?_replicate, hj]

/-- A successful `FileSortHelper.new` on the concatenation of `≥ 2`
sorted runs (all of length `cache_size` except a shorter final one)
establishes the merge invariant. -/
theorem new_inv {runs : List (List Nat)} {c : Nat} {s : FileSortHelper}
    (hK2 : 2 ≤ runs.length)
    (hfull : ∀ i, i + 1 < runs.length → (runAt runs i).length = c)
    (hlast1 : 1 ≤ (runAt runs (runs.length - 1)).length)
    (hlastc : (runAt runs (runs.length - 1)).length ≤ c)
    (hsorted : ∀ l ∈ runs, List.Sorted (· ≤ ·) l)
    (h : FileSortHelper.new c runs.length runs.flatten runs.flatten.length = .ok s) :
    MInv runs s := by
  simp only [FileSortHelper.new] at h
  by_cases hg1 : runs.length ≤ c - 1
  swap
  · rw [if_pos hg1] at h
    simp at h
  · rw [if_neg (not_not_intro hg1)] at h
    by_cases hg2 : c / (runs.length + 1) = 0
    · rw [if_pos hg2] at h
      simp at h
    · rw [if_neg hg2] at h
      have hc1 : 1 ≤ c := by omega
      have hB1 : 1 ≤ c / (runs.length + 1) := Nat.pos_of_ne_zero hg2
      -- total length of the scratch file
      have hdrop := flatten_drop_of_full c runs (fun j hj => hfull j hj)
        (runs.length - 1) (by omega)
      have hcons : runs.drop (runs.length - 1) = [runAt runs (runs.length - 1)] := by
        rw [List.drop_eq_getElem_cons (by omega : runs.length - 1 < runs.length)]
        rw [show runs.length - 1 + 1 = runs.length from by omega, List.drop_length]
        congr 1
        unfold runAt
        rw [List.getD_eq_getElem _ _ (by omega : runs.length - 1 < runs.length)]
      have hL : runs.flatten.length =
          (runs.length - 1) * c + (runAt runs (runs.length - 1)).length := by
        have h1 : (runs.flatten.drop ((runs.length - 1) * c)).length =
            (runAt runs (runs.length - 1)).length := by
          rw [hdrop, hcons]
          simp
        rw [List.length_drop] at h1
        omega
      have hck : c * runs.length = (runs.length - 1) * c + c := by
        have e1 : runs.length - 1 + 1 = runs.length := by omega
        calc c * runs.length = runs.length * c := Nat.mul_comm _ _
          _ = (runs.length - 1 + 1) * c := by rw [e1]
          _ = (runs.length - 1) * c + c := Nat.succ_mul _ _
      have hlcs : c - (c * runs.length - runs.flatten.length) =
          (runAt runs (runs.length - 1)).length := by
        generalize hP : (runs.length - 1) * c = P at hL hck
        omega
      -- the static invariant of the freshly-built helper
      have hS0 : SInv runs
          { cache_size := c
            caches_num := runs.length
            buffer_size := c / (runs.length + 1)
            in_file := runs.flatten
            out_file := []
            in_buffers := List.replicate runs.length []
            in_buffers_pos := List.replicate runs.length (c / (runs.length + 1))
            in_buffers_index := List.replicate runs.length 0
            out_buffer := []
            slices_per_cache :=
              (c + (c / (runs.length + 1) - 1)) / (c / (runs.length + 1))
            slices_per_last_cache :=
              (c - (c * runs.length - runs.flatten.length) + (c / (runs.length + 1) - 1)) /
                (c / (runs.length + 1))
            last_slice_size :=
              c / (runs.length + 1) -
                ((c + (c / (runs.length + 1) - 1)) / (c / (runs.length + 1)) *
                    (c / (runs.length + 1)) - c)
            last_slice_in_last_cache_size :=
              c / (runs.length + 1) -
                ((c - (c * runs.length - runs.flatten.length) + (c / (runs.length + 1) - 1)) /
                      (c / (runs.length + 1)) * (c / (runs.length + 1)) -
                  (c - (c * runs.length - runs.flatten.length))) } := by
        refine ⟨hK2, rfl, ?_, ?_, ?_, rfl, hc1, rfl, hB1, hfull, hlast1, hlastc, rfl,
          ?_, ?_, ?_, hsorted⟩
        · exact List.length_replicate _ _
        · exact List.length_replicate _ _
        · exact List.length_replicate _ _
        · show (c - (c * runs.length - runs.flatten.length) + (c / (runs.length + 1) - 1)) /
              (c / (runs.length + 1)) = _
          rw [hlcs]
        · exact last_slice_eq (c / (runs.length + 1)) c hB1 hc1
        · show c / (runs.length + 1) - _ = _
          rw [hlcs]
          exact last_slice_eq (c / (runs.length + 1)) _ hB1 hlast1
      -- run the loop lemma
      simp only [FileSortHelper.init_buffers] at h
      split at h
      next e heq =>
        exact absurd h (by simp)
      next s1 heq =>
        have hloop :
            FileSortHelper.initLoop runs.length 0
              (0 * c)
              { cache_size := c
                caches_num := runs.length
                buffer_size := c / (runs.length + 1)
                in_file := runs.flatten
                out_file := []
                in_buffers := List.replicate runs.length []
                in_buffers_pos := List.replicate runs.length (c / (runs.length + 1))
                in_buffers_index := List.replicate runs.length 0
                out_buffer := []
                slices_per_cache :=
                  (c + (c / (runs.length + 1) - 1)) / (c / (runs.length + 1))
                slices_per_last_cache :=
                  (c - (c * runs.length - runs.flatten.length) +
                      (c / (runs.length + 1) - 1)) / (c / (runs.length + 1))
                last_slice_size :=
                  c / (runs.length + 1) -
                    ((c + (c / (runs.length + 1) - 1)) / (c / (runs.length + 1)) *
                        (c / (runs.length + 1)) - c)
                last_slice_in_last_cache_size :=
                  c / (runs.length + 1) -
                    ((c - (c * runs.length - runs.flatten.length) +
                          (c / (runs.length + 1) - 1)) / (c / (runs.length + 1)) *
                        (c / (runs.length + 1)) -
                      (c - (c * runs.length - runs.flatten.length))) } = .ok s1 := by
          rw [Nat.zero_mul]
          exact heq
        obtain ⟨hst1, hof1, hob1, hK1, hB1', hfacts⟩ :=
          initLoop_inv runs.length 0 _ s1 hS0 (by simp) (fun j hj => by omega)
            (fun j hj hjK => ⟨getD_replicate _ _ _ _ hjK, getD_replicate _ _ _ _ hjK,
              getD_replicate _ _ _ _ hjK⟩) hloop
        have hs : ({ s1 with out_buffer := [] } : FileSortHelper) = s := Except.ok.inj h
        rw [← hs]
        refine ⟨SInv.update hst1 s1.in_buffers s1.in_buffers_pos s1.in_buffers_index
            s1.out_file [] hst1.hbufs_len hst1.hpos_len hst1.hidx_len, ?_, ?_, ?_, ?_, ?_,
            ?_, ?_, ?_⟩
        · intro j hj
          exact le_of_eq (hfacts j hj).1.symm
        · intro j hj
          have h1 := (hfacts j hj).1
          show s1.idxAt j ≤ s1.slicesAt j
          rw [h1]
          exact hst1.slices_pos j hj
        · intro j hj
          have h1 := (hfacts j hj).1
          have h3 := (hfacts j hj).2.2
          show s1.bufAt j =
            ((runAt runs j).drop ((s1.idxAt j - 1) * s1.buffer_size)).take s1.buffer_size
          rw [h1, h3]
          norm_num
        · intro j hj
          have h2 := (hfacts j hj).2.1
          show s1.posAt j ≤ (s1.bufAt j).length
          rw [h2]
          exact Nat.zero_le _
        · intro j hj
          have h2 := (hfacts j hj).2.1
          have h3 := (hfacts j hj).2.2
          show s1.posAt j = (s1.bufAt j).length → s1.idxAt j = s1.slicesAt j
          intro h0
          exfalso
          rw [h2, h3] at h0
          have hlen : (List.take s1.buffer_size (runAt runs j)).length =
              min s1.buffer_size (runAt runs j).length := List.length_take _ _
          have hrp := hst1.runLen_pos j hj
          have hb1 := hst1.hB1
          omega
        · show List.Sorted (· ≤ ·) (s1.out_file ++ [])
          rw [hof1]
          simp
        · intro x hx i hi y hy
          exfalso
          rw [hof1] at hx
          simp at hx
        · show ([] : List Nat).length < s1.buffer_size
          simp
          rw [hB1']
          exact hB1

/-! ## From the run producer to the merge invariant -/

theorem getD_map {α β : Type} (f : α → β) (l : List α) (i : Nat) (d : α) :
    (l.map f).getD i (f d) = f (l.getD i d) := by
  induction l generalizing i with
  | nil => rfl
  | cons a t ih =>
    cases i with
    | zero => rfl
    | succ i' => exact ih i'

theorem length_sortBytes (l : List Nat) : (sortBytes l).length = l.length :=
  (List.perm_insertionSort _ l).length_eq

theorem sorted_sortBytes (l : List Nat) : List.Sorted (· ≤ ·) (sortBytes l) :=
  List.sorted_insertionSort _ l

theorem perm_sortBytes (l : List Nat) : List.Perm (sortBytes l) l :=
  List.perm_insertionSort _ l

/-- Sorting each chunk does not change the total length. -/
theorem flatten_map_sortBytes_length (cs : List (List Nat)) :
    ((cs.map sortBytes).flatten).length = cs.flatten.length := by
  induction cs with
  | nil => rfl
  | cons a t ih => simp [List.flatten_cons, length_sortBytes, ih]

/-- The scratch file written by the producer loop has the input's length
(for a positive budget). -/
theorem scratch_length (c : Nat) (l : List Nat) (hc : 0 < c) :
    (((chunks c l).map sortBytes).flatten).length = l.length := by
  rw [flatten_map_sortBytes_length, chunks_flatten c hc]

/-- The run at index `i` is the sorted chunk at index `i`. -/
theorem runAt_map_sortBytes (c : Nat) (l : List Nat) (i : Nat) :
    runAt ((chunks c l).map sortBytes) i = sortBytes ((chunks c l).getD i []) :=
  getD_map sortBytes (chunks c l) i []

/-- The hypotheses `new_inv` needs, for the runs the producer loop
writes. -/
theorem producer_runs_facts (c : Nat) (l : List Nat) (hc : 0 < c) :
    (∀ i, i + 1 < ((chunks c l).map sortBytes).length →
      (runAt ((chunks c l).map sortBytes) i).length = c) ∧
    (((chunks c l).map sortBytes).length = 0 ∨
      1 ≤ (runAt ((chunks c l).map sortBytes)
            (((chunks c l).map sortBytes).length - 1)).length ∧
      (runAt ((chunks c l).map sortBytes)
            (((chunks c l).map sortBytes).length - 1)).length ≤ c) ∧
    (∀ r ∈ (chunks c l).map sortBytes, List.Sorted (· ≤ ·) r) := by
  refine ⟨?_, ?_, ?_⟩
  · intro i hi
    rw [List.length_map] at hi
    rw [runAt_map_sortBytes, length_sortBytes]
    exact chunks_full c hc l i hi
  · rcases Nat.eq_zero_or_pos ((chunks c l).map sortBytes).length with h0 | h0
    · exact Or.inl h0
    · refine Or.inr ?_
      rw [runAt_map_sortBytes, length_sortBytes, List.length_map]
      have hmem : (chunks c l).getD ((chunks c l).length - 1) [] ∈ chunks c l := by
        rw [List.length_map] at h0
        rw [List.getD_eq_getElem _ _ (by omega)]
        exact List.getElem_mem _
      exact chunks_mem_len c hc l _ hmem
  · intro r hr
    rw [List.mem_map] at hr
    obtain ⟨ch, _, hch⟩ := hr
    rw [← hch]
    exact sorted_sortBytes ch

theorem chain'_of_length_le_one {l : List Nat} (h : l.length ≤ 1) :
    List.Chain' (· ≤ ·) l := by
  cases l with
  | nil => simp
  | cons a t =>
    cases t with
    | nil => simp
    | cons b u => simp at h

/-! ## Buffer-size bounds (memory boundedness of the merge engine) -/

/-- The fields `FileSortHelper::new` derives once and no later operation
writes: everything except the buffers, cursors and output. -/
def sameConsts (t s' : FileSortHelper) : Prop :=
  s'.cache_size = t.cache_size ∧ s'.caches_num = t.caches_num ∧
  s'.buffer_size = t.buffer_size ∧ s'.in_file = t.in_file ∧
  s'.slices_per_cache = t.slices_per_cache ∧
  s'.slices_per_last_cache = t.slices_per_last_cache ∧
  s'.last_slice_size = t.last_slice_size ∧
  s'.last_slice_in_last_cache_size = t.last_slice_in_last_cache_size

/-- A successful `read_exact` returns exactly the requested number of
bytes. -/
theorem readExact_length {f : List Nat} {off n : Nat} {bytes : List Nat}
    (h : readExact f off n = .ok bytes) : bytes.length = n := by
  simp only [readExact] at h
  split at h
  next hle =>
    rw [← Except.ok.inj h, List.length_take, List.length_drop]
    omega
  next => exact Except.noConfusion h

/-- The `read_len` computed by `load_next_buffer` and `init_buffers` never
exceeds `buffer_size`, as long as the two precomputed last-slice lengths
do not. -/
theorem readLen_le (p q : Prop) [Decidable p] [Decidable q] {B lss lsil : Nat}
    (h1 : lss ≤ B) (h2 : lsil ≤ B) :
    (if p then B else if q then lss else lsil) ≤ B := by
  split_ifs <;> omega

/-- `init_buffers`' loop keeps the derived sizes, keeps the output buffer,
and never grows a sub-buffer past `buffer_size`. -/
theorem initLoop_bounds : ∀ (fuel i fpos : Nat) (t s' : FileSortHelper),
    FileSortHelper.initLoop fuel i fpos t = .ok s' →
    t.last_slice_size ≤ t.buffer_size →
    t.last_slice_in_last_cache_size ≤ t.buffer_size →
    (∀ b ∈ t.in_buffers, b.length ≤ t.buffer_size) →
    sameConsts t s' ∧ s'.out_buffer = t.out_buffer ∧
      ∀ b ∈ s'.in_buffers, b.length ≤ t.buffer_size := by
  intro fuel
  induction fuel with
  | zero =>
    intro i fpos t s' h _ _ hbufs
    simp only [FileSortHelper.initLoop] at h
    rw [← Except.ok.inj h]
    exact ⟨⟨rfl, rfl, rfl, rfl, rfl, rfl, rfl, rfl⟩, rfl, hbufs⟩
  | succ fuel ih =>
    intro i fpos t s' h h1 h2 hbufs
    simp only [FileSortHelper.initLoop] at h
    split at h
    next e heq => exact Except.noConfusion h
    next bytes heq =>
      have hblen : bytes.length ≤ t.buffer_size := by
        rw [readExact_length heq]
        exact readLen_le _ _ h1 h2
      have step := ih (i + 1) _ _ s' h
      exact step h1 h2 (fun b hb => by
        rcases List.mem_or_eq_of_mem_set (show b ∈ t.in_buffers.set i bytes from hb) with
          hmem | hbe
        · exact hbufs b hmem
        · rw [hbe]
          exact hblen)

/-- `load_next_buffer` keeps the derived sizes, the output buffer and the
output file, and never grows a sub-buffer past `buffer_size`. -/
theorem load_next_buffer_bounds {t : FileSortHelper} {i : Nat} {s' : FileSortHelper}
    (h : t.load_next_buffer i = .ok s')
    (h1 : t.last_slice_size ≤ t.buffer_size)
    (h2 : t.last_slice_in_last_cache_size ≤ t.buffer_size)
    (hbufs : ∀ b ∈ t.in_buffers, b.length ≤ t.buffer_size) :
    sameConsts t s' ∧ s'.out_buffer = t.out_buffer ∧ s'.out_file = t.out_file ∧
      ∀ b ∈ s'.in_buffers, b.length ≤ t.buffer_size := by
  simp only [FileSortHelper.load_next_buffer] at h
  split at h
  · split at h
    · split at h
      next e heq => exact Except.noConfusion h
      next bytes heq =>
        rw [← Except.ok.inj h]
        refine ⟨⟨rfl, rfl, rfl, rfl, rfl, rfl, rfl, rfl⟩, rfl, rfl, ?_⟩
        intro b hb
        rcases List.mem_or_eq_of_mem_set (show b ∈ t.in_buffers.set i bytes from hb) with
          hmem | hbe
        · exact hbufs b hmem
        · rw [hbe, readExact_length heq]
          split_ifs <;> omega
    · rw [← Except.ok.inj h]
      exact ⟨⟨rfl, rfl, rfl, rfl, rfl, rfl, rfl, rfl⟩, rfl, rfl, hbufs⟩
  · split at h
    · split at h
      next e heq => exact Except.noConfusion h
      next bytes heq =>
        rw [← Except.ok.inj h]
        refine ⟨⟨rfl, rfl, rfl, rfl, rfl, rfl, rfl, rfl⟩, rfl, rfl, ?_⟩
        intro b hb
        rcases List.mem_or_eq_of_mem_set (show b ∈ t.in_buffers.set i bytes from hb) with
          hmem | hbe
        · exact hbufs b hmem
        · rw [hbe, readExact_length heq]
          split_ifs <;> omega
    · rw [← Except.ok.inj h]
      exact ⟨⟨rfl, rfl, rfl, rfl, rfl, rfl, rfl, rfl⟩, rfl, rfl, hbufs⟩

/-- All sizing facts of a freshly constructed helper: `buffer_size` is the
integer division of the budget, it is positive, the `caches_num + 1`
sub-buffers fit in the budget, the two precomputed last-slice lengths are
at most `buffer_size`, and every buffer currently holds at most
`buffer_size` bytes. -/
theorem new_bounds {c K : Nat} {file : List Nat} {len : Nat} {s : FileSortHelper}
    (h : FileSortHelper.new c K file len = .ok s) :
    s.cache_size = c ∧ s.caches_num = K ∧ s.buffer_size = c / (K + 1) ∧
    1 ≤ s.buffer_size ∧ (s.caches_num + 1) * s.buffer_size ≤ s.cache_size ∧
    s.last_slice_size ≤ s.buffer_size ∧
    s.last_slice_in_last_cache_size ≤ s.buffer_size ∧
    (∀ b ∈ s.in_buffers, b.length ≤ s.buffer_size) ∧
    s.out_buffer.length ≤ s.buffer_size := by
  simp only [FileSortHelper.new] at h
  by_cases hg1 : K ≤ c - 1
  swap
  · rw [if_pos hg1] at h
    simp at h
  · rw [if_neg (not_not_intro hg1)] at h
    by_cases hg2 : c / (K + 1) = 0
    · rw [if_pos hg2] at h
      simp at h
    · rw [if_neg hg2] at h
      simp only [FileSortHelper.init_buffers] at h
      split at h
      next e heq => exact Except.noConfusion h
      next s2 heq =>
        obtain ⟨⟨e1, e2, e3, e4, e5, e6, e7, e8⟩, hob, hbufs⟩ :=
          initLoop_bounds _ _ _ _ _ heq (Nat.sub_le _ _) (Nat.sub_le _ _)
            (fun b hb => by
              rw [List.eq_of_mem_replicate (show b ∈ List.replicate K ([] : List Nat) from hb)]
              exact Nat.zero_le _)
        have hs := Except.ok.inj h
        have f1 : s.cache_size = c := by rw [← hs]; exact e1
        have f2 : s.caches_num = K := by rw [← hs]; exact e2
        have f3 : s.buffer_size = c / (K + 1) := by rw [← hs]; exact e3
        have f4 : 1 ≤ s.buffer_size := by
          rw [f3]
          exact Nat.pos_of_ne_zero hg2
        have f5 : (s.caches_num + 1) * s.buffer_size ≤ s.cache_size := by
          rw [f1, f2, f3]
          calc (K + 1) * (c / (K + 1)) = c / (K + 1) * (K + 1) := Nat.mul_comm _ _
            _ ≤ c := Nat.div_mul_le_self _ _
        have f6 : s.last_slice_size ≤ s.buffer_size := by
          rw [← hs]
          show s2.last_slice_size ≤ s2.buffer_size
          rw [e7, e3]
          exact Nat.sub_le _ _
        have f7 : s.last_slice_in_last_cache_size ≤ s.buffer_size := by
          rw [← hs]
          show s2.last_slice_in_last_cache_size ≤ s2.buffer_size
          rw [e8, e3]
          exact Nat.sub_le _ _
        have f8 : ∀ b ∈ s.in_buffers, b.length ≤ s.buffer_size := by
          rw [← hs]
          intro b hb
          show b.length ≤ s2.buffer_size
          rw [e3]
          exact hbufs b hb
        have f9 : s.out_buffer.length ≤ s.buffer_size := by
          rw [← hs]
          show ([] : List Nat).length ≤ s2.buffer_size
          simp
        exact ⟨f1, f2, f3, f4, f5, f6, f7, f8, f9⟩

/-- One merge iteration keeps the derived sizes and the buffer bounds:
sub-buffers stay at most `buffer_size` long, the output buffer ends the
iteration strictly below `buffer_size` (it is flushed the moment it fills
up), and even its transient peak within the iteration is `buffer_size`. -/
theorem mergeStep_bounds {t s' : FileSortHelper}
    (h : t.mergeStep = .ok (some s'))
    (h1 : t.last_slice_size ≤ t.buffer_size)
    (h2 : t.last_slice_in_last_cache_size ≤ t.buffer_size)
    (hbufs : ∀ b ∈ t.in_buffers, b.length ≤ t.buffer_size)
    (hout : t.out_buffer.length < t.buffer_size) :
    sameConsts t s' ∧ (∀ b ∈ s'.in_buffers, b.length ≤ t.buffer_size) ∧
      s'.out_buffer.length < t.buffer_size ∧
      t.out_buffer.length + 1 ≤ t.buffer_size := by
  simp only [FileSortHelper.mergeStep] at h
  by_cases hch :
      (scanMinAux (heads t.in_buffers t.in_buffers_pos) 0 (0, 255, false)).2.2 = false
  · simp only [if_pos hch] at h
    exact absurd (Except.ok.inj h) (by simp)
  · simp only [if_neg hch] at h
    split at h
    · -- the winning run's cursor reached the end of its buffer: refill
      cases hx : FileSortHelper.load_next_buffer
          { t with
            out_buffer := t.out_buffer ++
              [(scanMinAux (heads t.in_buffers t.in_buffers_pos) 0 (0, 255, false)).2.1],
            in_buffers_pos := t.in_buffers_pos.set
              (scanMinAux (heads t.in_buffers t.in_buffers_pos) 0 (0, 255, false)).1
              (t.in_buffers_pos.getD
                (scanMinAux (heads t.in_buffers t.in_buffers_pos) 0 (0, 255, false)).1 0 + 1) }
          (scanMinAux (heads t.in_buffers t.in_buffers_pos) 0 (0, 255, false)).1 with
      | error e =>
        rw [hx] at h
        simp only [Except.bind] at h
        exact Except.noConfusion h
      | ok s2 =>
        rw [hx, except_bind_ok] at h
        obtain ⟨⟨e1, e2, e3, e4, e5, e6, e7, e8⟩, hob, hof, hbufs2⟩ :=
          load_next_buffer_bounds hx h1 h2 hbufs
        have e3' : s2.buffer_size = t.buffer_size := e3
        have hlen2 : s2.out_buffer.length = t.out_buffer.length + 1 := by
          rw [hob]
          simp
        by_cases hfl : s2.out_buffer.length = s2.buffer_size
        · simp only [if_pos hfl] at h
          rw [← Option.some.inj (Except.ok.inj h)]
          refine ⟨⟨e1, e2, e3, e4, e5, e6, e7, e8⟩, hbufs2, ?_, hout⟩
          show ([] : List Nat).length < t.buffer_size
          simp only [List.length_nil]
          omega
        · simp only [if_neg hfl] at h
          rw [← Option.some.inj (Except.ok.inj h)]
          refine ⟨⟨e1, e2, e3, e4, e5, e6, e7, e8⟩, hbufs2, ?_, hout⟩
          have hne : s2.out_buffer.length ≠ t.buffer_size := by
            rw [← e3']
            exact hfl
          omega
    · -- no refill needed
      rw [except_bind_ok] at h
      have hlen1 :
          (t.out_buffer ++
            [(scanMinAux (heads t.in_buffers t.in_buffers_pos) 0 (0, 255, false)).2.1]).length =
          t.out_buffer.length + 1 := by simp
      by_cases hfl :
          (t.out_buffer ++
            [(scanMinAux (heads t.in_buffers t.in_buffers_pos) 0 (0, 255, false)).2.1]).length =
          t.buffer_size
      · simp only [if_pos hfl] at h
        rw [← Option.some.inj (Except.ok.inj h)]
        refine ⟨⟨rfl, rfl, rfl, rfl, rfl, rfl, rfl, rfl⟩, hbufs, ?_, hout⟩
        show ([] : List Nat).length < t.buffer_size
        simp only [List.length_nil]
        omega
      · simp only [if_neg hfl] at h
        rw [← Option.some.inj (Except.ok.inj h)]
        refine ⟨⟨rfl, rfl, rfl, rfl, rfl, rfl, rfl, rfl⟩, hbufs, ?_, hout⟩
        show (t.out_buffer ++
            [(scanMinAux (heads t.in_buffers t.in_buffers_pos) 0 (0, 255, false)).2.1]).length <
          t.buffer_size
        omega

/-! ## The claims -/

/-- C1: the permutation invariant fails.  For the 4-byte input
`[0, 255, 255, 0]` with `cache_size = 3` — which satisfies the
precondition `cache_size ≥ caches_num + 1` — `sort_file` succeeds but
returns the content `[0, 0]`: the merge loop's `min = u8::MAX` sentinel
(`m < min` is never true for an available byte `255`) silently drops
every `0xFF` byte, so the output is not a permutation of the input. -/
theorem sortFile_loses_bytes :
    sort_file [0, 255, 255, 0] 3 =
      .ok { content := [0, 0], path := .outTxt, usedMerge := true,
            scratchLeft := false, outCreated := true } ∧
    (chunks 3 [0, 255, 255, 0]).length + 1 ≤ 3 ∧
    ¬ List.Perm [0, 0] [0, 255, 255, 0] :=
  ⟨by rfl, by decide, by decide⟩

/-- C2: the order invariant holds.  Under the precondition
`cache_size ≥ caches_num + 1`, every `Ok` result of `sort_file` carries
non-decreasing content: adjacent output bytes satisfy
`output[i] ≤ output[i+1]`. -/
theorem sortFile_output_sorted (input : List Nat) (cache_size : Nat) (r : SortOk)
    (hpre : (chunks cache_size input).length + 1 ≤ cache_size)
    (h : sort_file input cache_size = .ok r) :
    List.Chain' (· ≤ ·) r.content := by
  have hc1 : 0 < cache_size := by omega
  simp only [sort_file] at h
  by_cases h1 : ((chunks cache_size input).map sortBytes).flatten.length ≤ 1
  · simp only [if_pos h1] at h
    rw [← Except.ok.inj h]
    exact chain'_of_length_le_one
      (by rw [← scratch_length cache_size input hc1]; exact h1)
  · simp only [if_neg h1] at h
    by_cases h2 : (chunks cache_size input).length = 1
    · simp only [if_pos h2] at h
      rw [← Except.ok.inj h]
      show List.Chain' (· ≤ ·) ((chunks cache_size input).map sortBytes).flatten
      obtain ⟨ch, hch⟩ := List.length_eq_one.mp h2
      rw [hch]
      simp only [List.map_cons, List.map_nil, List.flatten_cons, List.flatten_nil,
        List.append_nil]
      exact List.Pairwise.chain' (sorted_sortBytes ch)
    · simp only [if_neg h2] at h
      split at h
      next e heq => exact Except.noConfusion h
      next sorter heq =>
        split at h
        next e heq2 => exact Except.noConfusion h
        next s2 heq2 =>
          rw [← Except.ok.inj h]
          show List.Chain' (· ≤ ·) s2.out_file
          have hK0 : (chunks cache_size input).length ≠ 0 := by
            intro h0
            rw [List.length_eq_zero] at h0
            rw [h0] at h1
            simp at h1
          have hK2 : 2 ≤ ((chunks cache_size input).map sortBytes).length := by
            rw [List.length_map]
            omega
          obtain ⟨F1, F2, F3⟩ := producer_runs_facts cache_size input hc1
          rcases F2 with h0 | ⟨F2a, F2b⟩
          · omega
          · have heq' : FileSortHelper.new cache_size
                ((chunks cache_size input).map sortBytes).length
                ((chunks cache_size input).map sortBytes).flatten
                ((chunks cache_size input).map sortBytes).flatten.length = .ok sorter := by
              rw [List.length_map]
              exact heq
            have inv := new_inv hK2 F1 F2a F2b F3 heq'
            exact List.Pairwise.chain' (merge_sorted inv heq2)

/-- Witness for C2 at the concrete input `[1, 0, 2, 3]` with budget 3. -/
theorem sortFile_output_sorted_witness :
    (chunks 3 [1, 0, 2, 3]).length + 1 ≤ 3 ∧
    List.Chain' (· ≤ ·) ([0, 1, 2, 3] : List Nat) :=
  ⟨by decide,
   sortFile_output_sorted [1, 0, 2, 3] 3
     { content := [0, 1, 2, 3]
       path := .outTxt
       usedMerge := true
       scratchLeft := false
       outCreated := true } (by decide) (by rfl)⟩

/-- C3: violating the budget precondition is an unrecoverable panic, not a
recoverable error.  The 4-byte input `[0, 1, 2, 3]` with `cache_size = 2`
implies `caches_num = 2 > cache_size - 1`, and `sort_file` aborts through
the `assert!` in `FileSortHelper::new` (`panicked "File is too big."`)
instead of returning an error value the caller could retry on. -/
theorem budget_violation_panics :
    sort_file [0, 1, 2, 3] 2 = .error (.panicked "File is too big.") ∧
    ¬ (chunks 2 [0, 1, 2, 3]).length + 1 ≤ 2 :=
  ⟨by rfl, by decide⟩

/-- C4: the scratch file leaks on a producer-phase I/O error.  Running the
instrumented model on `[0, 1]` with budget 2 and making operation 2 (the
first `write_all` to the scratch file, after `open` and `create`) fail:
the call returns the I/O error, the scratch file was created
(`scratchMade`), and it still exists afterwards (`scratchEx`) — the
`FileSortHelper` whose `Drop` would delete it is only constructed later,
in the merge phase. -/
theorem scratch_file_leaks_on_producer_error :
    sort_fileRunE [0, 1] 2 (some 2) =
      (.error .ioError,
        { nextOp := 3, failAt := some 2, scratchMade := true, scratchEx := true }) := by
  rfl

/-- C5: the merge phase is memory-bounded.  `buffer_size` is the integer
division `cache_size / (caches_num + 1)` and is at least 1 after a
successful `new`; every sub-buffer and the output buffer hold at most
`buffer_size` bytes after `init_buffers` (inside `new`), after every
`load_next_buffer`, and after every iteration of `merge` (whose output
buffer stays strictly below `buffer_size` between iterations and peaks at
`buffer_size` within one); so `(caches_num + 1) * buffer_size ≤
cache_size` bytes are buffered in total at any point. -/
theorem merge_memory_bounded :
    (∀ (c K : Nat) (file : List Nat) (len : Nat) (s : FileSortHelper),
        FileSortHelper.new c K file len = .ok s →
        s.buffer_size = c / (K + 1) ∧ 1 ≤ s.buffer_size ∧
        (s.caches_num + 1) * s.buffer_size ≤ s.cache_size ∧
        (∀ b ∈ s.in_buffers, b.length ≤ s.buffer_size) ∧
        s.out_buffer.length ≤ s.buffer_size) ∧
    (∀ (t : FileSortHelper) (i : Nat) (s' : FileSortHelper),
        t.load_next_buffer i = .ok s' →
        t.last_slice_size ≤ t.buffer_size →
        t.last_slice_in_last_cache_size ≤ t.buffer_size →
        (∀ b ∈ t.in_buffers, b.length ≤ t.buffer_size) →
        ∀ b ∈ s'.in_buffers, b.length ≤ t.buffer_size) ∧
    (∀ (t s' : FileSortHelper),
        t.mergeStep = .ok (some s') →
        t.last_slice_size ≤ t.buffer_size →
        t.last_slice_in_last_cache_size ≤ t.buffer_size →
        (∀ b ∈ t.in_buffers, b.length ≤ t.buffer_size) →
        t.out_buffer.length < t.buffer_size →
        (∀ b ∈ s'.in_buffers, b.length ≤ t.buffer_size) ∧
        s'.out_buffer.length < t.buffer_size ∧
        t.out_buffer.length + 1 ≤ t.buffer_size) := by
  refine ⟨?_, ?_, ?_⟩
  · intro c K file len s h
    obtain ⟨f1, f2, f3, f4, f5, f6, f7, f8, f9⟩ := new_bounds h
    exact ⟨f3, f4, f5, f8, f9⟩
  · intro t i s' h h1 h2 hbufs
    exact (load_next_buffer_bounds h h1 h2 hbufs).2.2.2
  · intro t s' h h1 h2 hbufs hout
    obtain ⟨_, g2, g3, g4⟩ := mergeStep_bounds h h1 h2 hbufs hout
    exact ⟨g2, g3, g4⟩

/-- The helper `sort_file` builds for the input `[0, 255, 255, 0]` with
budget 3 (two runs `[0, 255, 255]` and `[0]`, `buffer_size = 1`). -/
def sorterW : FileSortHelper :=
  { cache_size := 3
    caches_num := 2
    buffer_size := 1
    in_file := [0, 255, 255, 0]
    out_file := []
    in_buffers := [[0], [0]]
    in_buffers_pos := [0, 0]
    in_buffers_index := [1, 1]
    out_buffer := []
    slices_per_cache := 3
    slices_per_last_cache := 1
    last_slice_size := 1
    last_slice_in_last_cache_size := 1 }

/-- `sorterW` after one merge iteration: byte `0` of run 0 was emitted and
flushed, and run 0's sub-buffer was refilled with its second slice. -/
def sorterW1 : FileSortHelper :=
  { cache_size := 3
    caches_num := 2
    buffer_size := 1
    in_file := [0, 255, 255, 0]
    out_file := [0]
    in_buffers := [[255], [0]]
    in_buffers_pos := [0, 0]
    in_buffers_index := [2, 1]
    out_buffer := []
    slices_per_cache := 3
    slices_per_last_cache := 1
    last_slice_size := 1
    last_slice_in_last_cache_size := 1 }

/-- Witness for C5: a concrete successful `new` and a concrete merge
iteration on the resulting state. -/
theorem merge_memory_bounded_witness :
    FileSortHelper.new 3 2 [0, 255, 255, 0] 4 = .ok sorterW ∧
    sorterW.buffer_size = 3 / (2 + 1) ∧
    1 ≤ sorterW.buffer_size ∧
    (sorterW.caches_num + 1) * sorterW.buffer_size ≤ sorterW.cache_size ∧
    sorterW.mergeStep = .ok (some sorterW1) ∧
    sorterW1.out_buffer.length < sorterW.buffer_size ∧
    sorterW.out_buffer.length + 1 ≤ sorterW.buffer_size := by
  have hnew : FileSortHelper.new 3 2 [0, 255, 255, 0] 4 = .ok sorterW := by rfl
  have hstep : sorterW.mergeStep = .ok (some sorterW1) := by rfl
  have hA := merge_memory_bounded.1 3 2 [0, 255, 255, 0] 4 sorterW hnew
  have hC := merge_memory_bounded.2.2 sorterW sorterW1 hstep (by decide) (by decide)
    (by decide) (by decide)
  exact ⟨hnew, hA.1, hA.2.1, hA.2.2.1, hstep, hC.2.1, hC.2.2⟩

/-- C6: the merge loop's termination clause is wrong.  On the two runs of
`[0, 255, 255, 0]` (budget 3) the loop stops — `merge` returns — while run
0 still has the byte `255` available at its cursor (`some 255` below), and
that available byte was never appended: the scan's `min = u8::MAX`
sentinel cannot select a byte equal to 255, so the "no run has any
available byte" termination condition does not hold at exit. -/
theorem merge_stops_with_available_byte :
    ((FileSortHelper.new 3 2 [0, 255, 255, 0] 4).bind FileSortHelper.merge).map
        (fun s => (s.out_file, heads s.in_buffers s.in_buffers_pos)) =
      .ok ([0, 0], [some 255, none]) := by
  rfl

/-- Counterexample for C7: the spec's end-to-end example violates the
budget precondition it is supposed to illustrate — `[5, 3, 3, 1, 9, 2]`
with `cache_size = 2` yields `caches_num = 3 > cache_size - 1`, so
`sort_file` panics instead of producing `[1, 2, 3, 3, 5, 9]`. -/
theorem example_cache_two_panics :
    sort_file [5, 3, 3, 1, 9, 2] 2 = .error (.panicked "File is too big.") := by
  rfl

/-- C7 (amended): with `cache_size = 2` the producer does partition
`[5, 3, 3, 1, 9, 2]` into the three sorted runs `[3, 5], [1, 3], [2, 9]`,
but the merge can only be reached with a budget satisfying the
precondition; with `cache_size = 4` (two runs) the sorted output
`[1, 2, 3, 3, 5, 9]` is produced. -/
theorem example_partition_amended :
    (chunks 2 [5, 3, 3, 1, 9, 2]).map sortBytes = [[3, 5], [1, 3], [2, 9]] ∧
    sort_file [5, 3, 3, 1, 9, 2] 4 =
      .ok { content := [1, 2, 3, 3, 5, 9], path := .outTxt, usedMerge := true,
            scratchLeft := false, outCreated := true } :=
  ⟨by rfl, by rfl⟩

/-- C8: a single-run file (2 ≤ length ≤ cache_size) is fully handled by
the producer: `sort_file` returns the scratch file's content — the input
sorted in one pass — promoted to the output path, without invoking the
merge engine (`usedMerge = false`). -/
theorem single_run_promotes_scratch (input : List Nat) (cache_size : Nat)
    (h2 : 2 ≤ input.length) (hc : input.length ≤ cache_size) :
    sort_file input cache_size =
      .ok { content := sortBytes input, path := .outTxt, usedMerge := false,
            scratchLeft := false, outCreated := true } ∧
    List.Sorted (· ≤ ·) (sortBytes input) ∧ List.Perm (sortBytes input) input := by
  have hc1 : 0 < cache_size := by omega
  have hch : chunks cache_size input = [input] := by
    cases input with
    | nil => simp at h2
    | cons a l =>
      rw [chunks_cons cache_size hc1 a l, List.take_of_length_le hc,
        List.drop_eq_nil_of_le hc, chunks_nil]
  refine ⟨?_, sorted_sortBytes input, perm_sortBytes input⟩
  simp only [sort_file, hch, List.map_cons, List.map_nil, List.flatten_cons,
    List.flatten_nil, List.append_nil, List.length_cons, List.length_nil]
  rw [if_neg (by rw [length_sortBytes]; omega), if_pos trivial]

/-- Witness for C8 at the concrete input `[2, 1]` with budget 2. -/
theorem single_run_promotes_scratch_witness :
    2 ≤ ([2, 1] : List Nat).length ∧ ([2, 1] : List Nat).length ≤ 2 ∧
    sort_file [2, 1] 2 =
      .ok { content := [1, 2], path := .outTxt, usedMerge := false,
            scratchLeft := false, outCreated := true } :=
  ⟨by decide, by decide,
   (single_run_promotes_scratch [2, 1] 2 (by decide) (by decide)).1⟩

/-- C9: a file of length 0 or 1 short-circuits: `sort_file` returns the
original input path with the input unchanged, no merge runs, the scratch
file is deleted and no output file is created. -/
theorem trivial_file_returns_original_path (input : List Nat) (cache_size : Nat)
    (h : input.length ≤ 1) :
    sort_file input cache_size =
      .ok { content := input, path := .original, usedMerge := false,
            scratchLeft := false, outCreated := false } := by
  have hlen : (((chunks cache_size input).map sortBytes).flatten).length ≤ 1 := by
    rcases Nat.eq_zero_or_pos cache_size with h0 | h0
    · subst h0
      rw [show chunks 0 input = [] from by simp [chunks]]
      simp
    · rw [scratch_length cache_size input h0]
      exact h
  simp only [sort_file]
  rw [if_pos hlen]

/-- Witness for C9 at the concrete one-byte input `[7]` with budget 5. -/
theorem trivial_file_returns_original_path_witness :
    ([7] : List Nat).length ≤ 1 ∧
    sort_file [7] 5 =
      .ok { content := [7], path := .original, usedMerge := false,
            scratchLeft := false, outCreated := false } :=
  ⟨by decide, trivial_file_returns_original_path [7] 5 (by decide)⟩

/-- Counterexample for C10: with `cache_size = 0` (not excluded by the
claim) the producer loop reads nothing, so `sort_file` declares the 2-byte
file `[0, 1]` "already sorted" and returns the original input path — the
claim's path rule ("out.txt for length > 1") fails. -/
theorem zero_budget_breaks_path_rule :
    sort_file [0, 1] 0 =
      .ok { content := [0, 1], path := .original, usedMerge := false,
            scratchLeft := false, outCreated := false } ∧
    ¬ ([0, 1] : List Nat).length ≤ 1 :=
  ⟨by rfl, by decide⟩

/-- C10 (amended): for a positive `cache_size`, `sort_file` is
deterministic — two failure-free executions on the same content and budget
return the same result — and the returned path is the original input path
exactly for inputs of length ≤ 1, and the `out.txt` path otherwise. -/
theorem sortFile_deterministic_path (input : List Nat) (cache_size : Nat)
    (r₁ r₂ : SortOk) (hc : 1 ≤ cache_size)
    (h₁ : sort_file input cache_size = .ok r₁)
    (h₂ : sort_file input cache_size = .ok r₂) :
    r₁ = r₂ ∧
      r₁.path =
        (if input.length ≤ 1 then PathChoice.original else PathChoice.outTxt) := by
  have hc1 : 0 < cache_size := hc
  refine ⟨Except.ok.inj (h₁.symm.trans h₂), ?_⟩
  simp only [sort_file] at h₁
  by_cases hlen : ((chunks cache_size input).map sortBytes).flatten.length ≤ 1
  · simp only [if_pos hlen] at h₁
    rw [← Except.ok.inj h₁,
      if_pos (by rw [← scratch_length cache_size input hc1]; exact hlen)]
  · simp only [if_neg hlen] at h₁
    rw [if_neg (show ¬ input.length ≤ 1 from by
      rw [← scratch_length cache_size input hc1]; exact hlen)]
    by_cases h2 : (chunks cache_size input).length = 1
    · simp only [if_pos h2] at h₁
      rw [← Except.ok.inj h₁]
    · simp only [if_neg h2] at h₁
      split at h₁
      next e heq => exact Except.noConfusion h₁
      next sorter heq =>
        split at h₁
        next e heq2 => exact Except.noConfusion h₁
        next s2 heq2 => rw [← Except.ok.inj h₁]

/-- Witness for C10 at the concrete input `[5, 6]` with budget 2. -/
theorem sortFile_deterministic_path_witness :
    (1 : Nat) ≤ 2 ∧
    ({ content := [5, 6], path := .outTxt, usedMerge := false,
       scratchLeft := false, outCreated := true } : SortOk).path =
      (if ([5, 6] : List Nat).length ≤ 1 then PathChoice.original
       else PathChoice.outTxt) :=
  ⟨by decide,
   (sortFile_deterministic_path [5, 6] 2
     { content := [5, 6]
       path := .outTxt
       usedMerge := false
       scratchLeft := false
       outCreated := true }
     { content := [5, 6]
       path := .outTxt
       usedMerge := false
       scratchLeft := false
       outCreated := true } (by decide) (by rfl) (by rfl)).2⟩
